import Mathlib

/-!
# A verification development for the StringPool block allocator

This file gives a shallow embedding, in Lean 4, of `StringPool.h`: the
`StringBlock` class (a fixed-capacity buffer of character units filled
left-to-right) and the `StringPool` class (a vector of blocks kept sorted
ascending by free space, with best-fit block selection, in-place order
repair after each append, and a merging constructor), together with proofs
of the documented properties of that code.

Modelling conventions:

* Character units are modelled as `Nat` (the algorithms are independent of
  the character width; the terminator unit written by the code is `0`).
* `std::size_t` values are natural numbers bounded by `SIZE_MAX = 2^64 - 1`
  (a 64-bit platform); the one place where the code's `size_t` arithmetic
  could wrap (`length + 1` in `getSpaceRequiredToStoreStringOfLength`) is
  modelled with an explicit `% 2^64`.
* A buffer address is modelled by a numeric identifier `bufId`.  The pool
  carries a counter `nextId` standing for the allocator: `new T[n]` hands
  out the fresh identifier `nextId`, distinct from the identifier of every
  buffer previously allocated by the pool and from any live caller buffer.
* A `std::basic_string_view` returned by the code is a `View`: either a
  pointer into a block's buffer (identifier, offset, length) or the static
  `nullChar` singleton returned by a failed `addString`.
* `std::lower_bound` / `std::upper_bound` require their input range to be
  partitioned by the predicate and return its partition point (the first
  iterator at which the comparison changes); we model that contract
  directly as a first-index search over indices.  Every range the pool
  passes to them is partitioned, because the block sequence is kept sorted
  by free space (proved below).
-/

/-- `std::numeric_limits<std::size_t>::max()` on a 64-bit platform. -/
def SIZE_MAX : Nat := 2 ^ 64 - 1

/-- Maximum representable value of an 8-bit character type (`char` /
`unsigned char`), used to compare the code's length guard (which tests
against `SIZE_MAX`) with a guard at the character type's maximum. -/
def char8Max : Nat := 2 ^ 8 - 1

/-- A `std::basic_string_view<T>` as handed out by the pool: either a view
into a block's buffer (buffer identifier, start offset, length) or the view
of the static `nullChar` returned by a failed `StringBlock::addString`. -/
inductive View where
  | nullCharView : View
  | ptr (bufId : Nat) (offset : Nat) (len : Nat) : View
deriving DecidableEq

/-- The length of a returned view.  A view built from `&nullChar` has
length 0 (the terminator is the first character). -/
def View.len : View → Nat
  | View.nullCharView => 0
  | View.ptr _ _ l => l

/-- The buffer identifier a view points into, if it points into a pool
buffer at all. -/
def View.buf : View → Option Nat
  | View.nullCharView => none
  | View.ptr b _ _ => some b

/-- `class StringBlock`: `memory` (the owned buffer, of length `size`),
`size` (capacity in character units) and `usedSpace`, plus the model-level
buffer identifier `bufId` standing for the address of `memory`. -/
structure StringBlock where
  bufId : Nat
  memory : List Nat
  size : Nat
  usedSpace : Nat
deriving DecidableEq

instance : Inhabited StringBlock := ⟨⟨0, [], 0, 0⟩⟩

/-- `StringBlock(std::size_t elementCount)`: allocates a buffer of
`elementCount` units (`new T[n]`; the model fills it with zeros — the code
never reads unwritten cells), `size = elementCount`, `usedSpace = 0`.
`id` is the fresh identifier the allocator hands out for the buffer. -/
def StringBlock.mkBlock (id elementCount : Nat) : StringBlock :=
  ⟨id, List.replicate elementCount 0, elementCount, 0⟩

/-- `StringBlock::isStringLengthValid`: with `NullTerminateStrings` the
length must differ from `SIZE_MAX` so that the `+ 1` below cannot wrap. -/
def isStringLengthValid (NT : Bool) (length : Nat) : Bool :=
  if NT then decide (length ≠ SIZE_MAX) else true

/-- `StringBlock::getSpaceRequiredToStoreStringOfLength`: `length + 1`
(computed in `size_t`, hence the explicit `% 2^64`) when a terminator is
appended and the length is valid, otherwise `length`. -/
def getSpaceRequiredToStoreStringOfLength (NT : Bool) (length : Nat) : Nat :=
  if NT then
    (if isStringLengthValid NT length then (length + 1) % 2 ^ 64 else length)
  else length

/-- `StringBlock::getFreeSpace`: `size - usedSpace` (unsigned). -/
def StringBlock.getFreeSpace (b : StringBlock) : Nat :=
  b.size - b.usedSpace

/-- `StringBlock::canTakeStringOfLength`. -/
def StringBlock.canTakeStringOfLength (NT : Bool) (b : StringBlock) (length : Nat) : Bool :=
  decide (b.getFreeSpace ≥ getSpaceRequiredToStoreStringOfLength NT length)
    && isStringLengthValid NT length

/-- `std::copy(string.begin(), string.end(), destination)`: writes the
characters of `s` into `mem` starting at index `dest`. -/
def writeChars (mem : List Nat) (dest : Nat) : List Nat → List Nat
  | [] => mem
  | c :: cs => writeChars (mem.set dest c) (dest + 1) cs

/-- `StringBlock::addString`.  When the block cannot take the string the
code's debug assertion fires; with assertions disabled it returns a view of
the static `nullChar` and leaves the block unchanged.  Otherwise it copies
the string to `memory + usedSpace`, writes a terminator after it when
`NullTerminateStrings`, advances `usedSpace` by the space consumed and
returns a view over the just-written region. -/
def StringBlock.addString (NT : Bool) (b : StringBlock) (s : List Nat) : View × StringBlock :=
  if ¬ b.canTakeStringOfLength NT s.length then
    (View.nullCharView, b)
  else
    let destination := b.usedSpace
    let mem1 := writeChars b.memory destination s
    let mem2 := if NT then mem1.set (destination + s.length) 0 else mem1
    (View.ptr b.bufId destination s.length,
     { b with memory := mem2,
              usedSpace := b.usedSpace + getSpaceRequiredToStoreStringOfLength NT s.length })

/-- `swap(StringBlock&, StringBlock&)`: swaps the buffer handles and both
counters, i.e. exchanges the two records wholesale. -/
def swapStringBlocks (a b : StringBlock) : StringBlock × StringBlock := (b, a)

/-- `std::lower_bound` over the index range `[first, first + count)`:
the range is partitioned with all indices satisfying `pred` before all
indices failing it, and the result is the partition point — the first
index at which `pred` is false, or `first + count` if there is none. -/
def lowerBoundIdx (pred : Nat → Bool) : Nat → Nat → Nat
  | first, 0 => first
  | first, count + 1 => if pred first then lowerBoundIdx pred (first + 1) count else first

/-- `std::upper_bound` over the index range `[first, first + count)` with
comparison `pred i = comp(value, range[i])`: the partition point — the
first index at which `pred` is true, or `first + count` if there is none. -/
def upperBoundIdx (pred : Nat → Bool) : Nat → Nat → Nat
  | first, 0 => first
  | first, count + 1 => if pred first then first else upperBoundIdx pred (first + 1) count

/-- Exchange the list elements at positions `i` and `j`
(`std::iter_swap`). -/
def swapIdx (bs : List StringBlock) (i j : Nat) : List StringBlock :=
  (bs.set i (bs.getD j default)).set j (bs.getD i default)

/-- The body of the `while (it != block) { std::iter_swap(it, block); ++it; }`
loop of `reorderBlocksAfterAddingStringToBlock`, with the remaining
iteration count `idx - it` made explicit (`it` only increases, `idx` is
fixed, so the loop runs exactly `idx - it` times). -/
def swapLoopGo (idx : Nat) : List StringBlock → Nat → Nat → List StringBlock
  | bs, _, 0 => bs
  | bs, it, k + 1 => swapLoopGo idx (swapIdx bs it idx) (it + 1) k

/-- The rotate loop of `reorderBlocksAfterAddingStringToBlock`, starting at
iterator position `it` and ending when it reaches `idx`. -/
def swapLoopFrom (bs : List StringBlock) (it idx : Nat) : List StringBlock :=
  swapLoopGo idx bs it (idx - it)

/-- `class StringPool`: the block vector and `defaultBlockCapacity`, plus
the model-level allocator counter `nextId`: identifiers `≥ nextId` are the
addresses `new` may still hand out, so every buffer the pool has allocated
so far has `bufId < nextId`. -/
structure StringPool where
  blocks : List StringBlock
  defaultBlockCapacity : Nat
  nextId : Nat
deriving DecidableEq

/-- `StringPool(std::size_t defaultBlockCapacity)` (the default constructor
uses 8192). -/
def StringPool.mkPool (cap : Nat) : StringPool :=
  ⟨[], cap, 0⟩

/-- `StringPool::getBlockCount`. -/
def StringPool.getBlockCount (p : StringPool) : Nat :=
  p.blocks.length

/-- `StringPool::getFirstBlockMaybeCapableOfStoringStringOfLength`: when
there are more than two blocks and the second-to-last block cannot take the
string, start the search at the last block; otherwise at the beginning. -/
def StringPool.getFirstBlockMaybeCapableOfStoringStringOfLength
    (NT : Bool) (p : StringPool) (length : Nat) : Nat :=
  if 2 < p.blocks.length ∧
      ¬ (p.blocks.getD (p.blocks.length - 2) default).canTakeStringOfLength NT length then
    p.blocks.length - 1
  else 0

/-- `StringPool::findBlockCapableOfStoringStringOfLength`:
`std::lower_bound` from the heuristic start to the end of the vector with
the predicate `!block.canTakeStringOfLength(length)`; returns the index of
the first capable block in that range, or `blocks.length` if none. -/
def StringPool.findBlockCapableOfStoringStringOfLength
    (NT : Bool) (p : StringPool) (length : Nat) : Nat :=
  let first := p.getFirstBlockMaybeCapableOfStoringStringOfLength NT length
  lowerBoundIdx (fun i => ! (p.blocks.getD i default).canTakeStringOfLength NT length)
    first (p.blocks.length - first)

/-- `StringPool::createBlockCapableOfStoringStringOfLength`: append a fresh
block of capacity `max(defaultBlockCapacity, spaceRequired(length))` and
return its index (`std::prev(blocks.end())`). -/
def StringPool.createBlockCapableOfStoringStringOfLength
    (NT : Bool) (p : StringPool) (length : Nat) : Nat × StringPool :=
  (p.blocks.length,
   { p with
       blocks := p.blocks ++
         [StringBlock.mkBlock p.nextId
           (max p.defaultBlockCapacity (getSpaceRequiredToStoreStringOfLength NT length))],
       nextId := p.nextId + 1 })

/-- `StringPool::findOrCreateBlockCapableOfStoringStringOfLength`. -/
def StringPool.findOrCreateBlockCapableOfStoringStringOfLength
    (NT : Bool) (p : StringPool) (length : Nat) : Nat × StringPool :=
  let found := p.findBlockCapableOfStoringStringOfLength NT length
  if found ≠ p.blocks.length then (found, p)
  else p.createBlockCapableOfStoringStringOfLength NT length

/-- `StringPool::shouldReorderBlocksAfterAddingStringToBlock`: the written
block is not the first one and now has less free space than its
predecessor. -/
def shouldReorderBlocksAfterAddingStringToBlock (bs : List StringBlock) (idx : Nat) : Bool :=
  decide (idx ≠ 0) &&
    decide ((bs.getD idx default).getFreeSpace < (bs.getD (idx - 1) default).getFreeSpace)

/-- `StringPool::reorderBlocksAfterAddingStringToBlock`: `std::upper_bound`
over the blocks strictly before `idx` for the insertion point of the
written block's new free space; if the insertion point's free space equals
the predecessor's, a single `iter_swap` suffices, otherwise the block is
rotated leftward into place by the swap loop. -/
def reorderBlocksAfterAddingStringToBlock (bs : List StringBlock) (idx : Nat) :
    List StringBlock :=
  let freeSpace := (bs.getD idx default).getFreeSpace
  let it := upperBoundIdx (fun k => decide (freeSpace < (bs.getD k default).getFreeSpace)) 0 idx
  if it ≠ idx then
    if (bs.getD it default).getFreeSpace = (bs.getD (idx - 1) default).getFreeSpace then
      swapIdx bs it idx
    else
      swapLoopFrom bs it idx
  else bs

/-- `StringPool::blockChanged`. -/
def blockChanged (bs : List StringBlock) (idx : Nat) : List StringBlock :=
  if shouldReorderBlocksAfterAddingStringToBlock bs idx then
    reorderBlocksAfterAddingStringToBlock bs idx
  else bs

/-- `StringPool::addStringToBlock`: append the string to the block at
`idx`, then repair the ordering. -/
def StringPool.addStringToBlock (NT : Bool) (p : StringPool) (s : List Nat) (idx : Nat) :
    View × StringPool :=
  let r := (p.blocks.getD idx default).addString NT s
  (r.1, { p with blocks := blockChanged (p.blocks.set idx r.2) idx })

/-- `StringPool::add`. -/
def StringPool.add (NT : Bool) (p : StringPool) (s : List Nat) : View × StringPool :=
  let r := p.findOrCreateBlockCapableOfStoringStringOfLength NT s.length
  r.2.addStringToBlock NT s r.1

/-- A sequence of `add` calls (the views are discarded). -/
def StringPool.addAll (NT : Bool) (p : StringPool) : List (List Nat) → StringPool
  | [] => p
  | s :: ss => ((p.add NT s).2).addAll NT ss

/-- `std::inplace_merge` of two sorted runs with the comparison
`a.getFreeSpace() < b.getFreeSpace()`: the stable merge that takes from the
first run unless the second run's head compares strictly smaller. -/
def mergeBlockRuns : List StringBlock → List StringBlock → List StringBlock
  | [], ys => ys
  | x :: xs, [] => x :: xs
  | x :: xs, y :: ys =>
    if y.getFreeSpace < x.getFreeSpace then y :: mergeBlockRuns (x :: xs) ys
    else x :: mergeBlockRuns xs (y :: ys)
termination_by xs ys => xs.length + ys.length

/-- The merging constructor
`StringPool(StringPool&& largestPool, Pools&&... pools)` (the parameter
pack is modelled as a list).  It steals `largestPool`'s block vector, then
for each further pool appends its blocks and `inplace_merge`s the two
sorted runs, and clears that pool's vector.  The result's
`defaultBlockCapacity` is the member initializer 8192 (the constructor does
not copy `largestPool`'s).  Returned alongside the new pool are the source
pools as the constructor leaves them: `largestPool` moved-from (a moved-from
`std::vector` is empty) and each further pool explicitly `clear()`ed.  The
merged pool's `nextId` is the model allocator bound: the maximum of the
sources' bounds. -/
def StringPool.mergeAll (largest : StringPool) (others : List StringPool) :
    StringPool × (StringPool × List StringPool) :=
  ({ blocks := others.foldl (fun acc p => mergeBlockRuns acc p.blocks) largest.blocks,
     defaultBlockCapacity := 8192,
     nextId := others.foldl (fun m p => max m p.nextId) largest.nextId },
   ({ largest with blocks := [] },
    others.map (fun p => { p with blocks := [] })))

/-- Read a view against a pool state: locate the block owning the view's
buffer and extract `len` characters starting at `offset`.  Reading the
static `nullChar` view yields the empty string. -/
def readView (p : StringPool) : View → Option (List Nat)
  | View.nullCharView => some []
  | View.ptr b off l =>
    match p.blocks.find? (fun blk => blk.bufId = b) with
    | some blk => some ((blk.memory.drop off).take l)
    | none => none

/-- A view is live in a pool: it is the `nullChar` view, or it points into
a block of the pool, wholly inside that block's already-written region. -/
def viewLive (p : StringPool) : View → Prop
  | View.nullCharView => True
  | View.ptr b off l =>
    ∃ blk ∈ p.blocks, blk.bufId = b ∧ off + l ≤ blk.usedSpace

/-- Well-formedness of a block: the written region fits the buffer, the
buffer has exactly `size` cells, and `size` fits in `std::size_t`. -/
def wfBlock (b : StringBlock) : Prop :=
  b.usedSpace ≤ b.size ∧ b.memory.length = b.size ∧ b.size ≤ SIZE_MAX

/-- Well-formedness of a pool: every block is well-formed and was allocated
by the pool (`bufId < nextId`), buffer addresses are pairwise distinct, and
`defaultBlockCapacity` fits in `std::size_t`. -/
def wfPool (p : StringPool) : Prop :=
  (∀ b ∈ p.blocks, wfBlock b ∧ b.bufId < p.nextId) ∧
    (p.blocks.map StringBlock.bufId).Nodup ∧ p.defaultBlockCapacity ≤ SIZE_MAX

/-- The pool's ordering invariant: blocks sorted ascending by free space. -/
def sortedByFreeSpace (bs : List StringBlock) : Prop :=
  List.Chain' (fun a b => a.getFreeSpace ≤ b.getFreeSpace) bs

instance : IsTrans StringBlock (fun a b => a.getFreeSpace ≤ b.getFreeSpace) :=
  ⟨fun _ _ _ h1 h2 => Nat.le_trans h1 h2⟩

/-- Free space of the block at index `i` (0 outside the list). -/
def fsAt (bs : List StringBlock) (i : Nat) : Nat :=
  (bs.getD i default).getFreeSpace

/-- The specification's alternative block search: a plain partition-point
search (binary search) over the WHOLE block sequence, with no heuristic
narrowing of the range.  Stated from the spec's words, for comparison with
`StringPool.findBlockCapableOfStoringStringOfLength`. -/
def findBlockByFullSearch (NT : Bool) (p : StringPool) (length : Nat) : Nat :=
  lowerBoundIdx (fun i => ! (p.blocks.getD i default).canTakeStringOfLength NT length)
    0 p.blocks.length

/-- Executable check of the ordering invariant (used only to decide
`sortedByFreeSpace` on concrete pools). -/
def sortedByFreeSpaceB : List StringBlock → Bool
  | [] => true
  | [_] => true
  | a :: b :: rest => decide (a.getFreeSpace ≤ b.getFreeSpace) && sortedByFreeSpaceB (b :: rest)

instance (bs : List StringBlock) : Decidable (sortedByFreeSpace bs) :=
  decidable_of_iff (sortedByFreeSpaceB bs = true) (by
    induction bs with
    | nil => simp [sortedByFreeSpaceB, sortedByFreeSpace]
    | cons a rest ih =>
      cases rest with
      | nil => simp [sortedByFreeSpaceB, sortedByFreeSpace]
      | cons b rest2 =>
        rw [sortedByFreeSpace, List.chain'_cons, sortedByFreeSpaceB]
        rw [sortedByFreeSpace] at ih
        simp [ih])

instance (b : StringBlock) : Decidable (wfBlock b) :=
  inferInstanceAs (Decidable (b.usedSpace ≤ b.size ∧ b.memory.length = b.size ∧
    b.size ≤ SIZE_MAX))

instance (p : StringPool) : Decidable (wfPool p) :=
  inferInstanceAs (Decidable ((∀ b ∈ p.blocks, wfBlock b ∧ b.bufId < p.nextId) ∧
    (p.blocks.map StringBlock.bufId).Nodup ∧ p.defaultBlockCapacity ≤ SIZE_MAX))

instance (p : StringPool) (v : View) : Decidable (viewLive p v) :=
  match v with
  | View.nullCharView => isTrue trivial
  | View.ptr b off l =>
    inferInstanceAs (Decidable (∃ blk ∈ p.blocks, blk.bufId = b ∧ off + l ≤ blk.usedSpace))

/-! ### Arithmetic facts about the space computation -/

theorem getSpaceRequired_of_valid (length : Nat) (hv : length ≠ SIZE_MAX)
    (hle : length ≤ SIZE_MAX) :
    getSpaceRequiredToStoreStringOfLength true length = length + 1 := by
  have h1 : length + 1 < 2 ^ 64 := by
    have h2 : SIZE_MAX = 2 ^ 64 - 1 := rfl
    omega
  simp [getSpaceRequiredToStoreStringOfLength, isStringLengthValid, hv]
  omega

theorem length_le_getSpaceRequired (NT : Bool) (length : Nat) (hle : length ≤ SIZE_MAX) :
    length ≤ getSpaceRequiredToStoreStringOfLength NT length := by
  cases NT with
  | false => simp [getSpaceRequiredToStoreStringOfLength]
  | true =>
    by_cases hv : length = SIZE_MAX
    · simp [getSpaceRequiredToStoreStringOfLength, isStringLengthValid, hv]
    · rw [getSpaceRequired_of_valid length hv hle]
      omega

theorem getSpaceRequired_le_SIZE_MAX (NT : Bool) (length : Nat) (hle : length ≤ SIZE_MAX) :
    getSpaceRequiredToStoreStringOfLength NT length ≤ SIZE_MAX := by
  cases NT with
  | false => simpa [getSpaceRequiredToStoreStringOfLength] using hle
  | true =>
    by_cases hv : length = SIZE_MAX
    · simp [getSpaceRequiredToStoreStringOfLength, isStringLengthValid, hv]
    · rw [getSpaceRequired_of_valid length hv hle]
      have : SIZE_MAX = 2 ^ 64 - 1 := rfl
      omega

/-! ### Pointwise behaviour of `writeChars` -/

theorem length_writeChars (s : List Nat) (mem : List Nat) (dest : Nat) :
    (writeChars mem dest s).length = mem.length := by
  induction s generalizing mem dest with
  | nil => rfl
  | cons c cs ih => simp [writeChars, ih]

theorem getElem?_writeChars_lt (s : List Nat) (mem : List Nat) (dest i : Nat)
    (h : i < dest) : (writeChars mem dest s)[i]? = mem[i]? := by
  induction s generalizing mem dest with
  | nil => rfl
  | cons c cs ih =>
    rw [writeChars, ih (mem.set dest c) (dest + 1) (by omega),
      List.getElem?_set_ne (by omega)]

theorem getElem?_writeChars_ge (s : List Nat) (mem : List Nat) (dest i : Nat)
    (h : dest + s.length ≤ i) : (writeChars mem dest s)[i]? = mem[i]? := by
  induction s generalizing mem dest with
  | nil => rfl
  | cons c cs ih =>
    rw [writeChars, ih (mem.set dest c) (dest + 1) (by simp at h ⊢; omega),
      List.getElem?_set_ne (by simp at h; omega)]

theorem getElem?_writeChars_in (s : List Nat) (mem : List Nat) (dest i : Nat)
    (h1 : dest ≤ i) (h2 : i < dest + s.length) (h3 : i < mem.length) :
    (writeChars mem dest s)[i]? = s[i - dest]? := by
  induction s generalizing mem dest with
  | nil => simp at h2; omega
  | cons c cs ih =>
    rw [writeChars]
    rcases Nat.eq_or_lt_of_le h1 with heq | hlt
    · subst heq
      rw [getElem?_writeChars_lt cs (mem.set dest c) (dest + 1) dest (by omega),
        List.getElem?_set_self (by simpa using h3)]
      simp
    · rw [ih (mem.set dest c) (dest + 1) hlt (by simp at h2 ⊢; omega) (by simpa using h3)]
      have hd : i - dest = (i - (dest + 1)) + 1 := by omega
      rw [hd]
      simp

theorem writeChars_readback (s : List Nat) (mem : List Nat) (dest : Nat)
    (h : dest + s.length ≤ mem.length) :
    ((writeChars mem dest s).drop dest).take s.length = s := by
  apply List.ext_getElem?
  intro n
  rcases Nat.lt_or_ge n s.length with hn | hn
  · rw [List.getElem?_take_of_lt hn, List.getElem?_drop,
      getElem?_writeChars_in s mem dest (dest + n) (by omega) (by omega) (by omega)]
    congr 1
    omega
  · rw [List.getElem?_take_eq_none hn, List.getElem?_eq_none hn]

/-! ### Characterization of the partition-point searches -/

theorem lowerBoundIdx_spec (pred : Nat → Bool) (first count : Nat) :
    first ≤ lowerBoundIdx pred first count ∧
    lowerBoundIdx pred first count ≤ first + count ∧
    (∀ k, first ≤ k → k < lowerBoundIdx pred first count → pred k = true) ∧
    (lowerBoundIdx pred first count < first + count →
      pred (lowerBoundIdx pred first count) = false) := by
  induction count generalizing first with
  | zero =>
    simp only [lowerBoundIdx]
    exact ⟨Nat.le_refl _, by omega, fun k h1 h2 => by omega, fun h => by omega⟩
  | succ n ih =>
    by_cases h : pred first
    · obtain ⟨ih1, ih2, ih3, ih4⟩ := ih (first + 1)
      rw [lowerBoundIdx, if_pos h]
      refine ⟨by omega, by omega, ?_, by intro hlt; exact ih4 (by omega)⟩
      intro k hk1 hk2
      rcases Nat.eq_or_lt_of_le hk1 with rfl | hk
      · exact h
      · exact ih3 k hk hk2
    · rw [lowerBoundIdx, if_neg h]
      refine ⟨Nat.le_refl _, by omega, ?_, fun _ => by simpa using h⟩
      intro k h1 h2
      omega

theorem upperBoundIdx_spec (pred : Nat → Bool) (first count : Nat) :
    first ≤ upperBoundIdx pred first count ∧
    upperBoundIdx pred first count ≤ first + count ∧
    (∀ k, first ≤ k → k < upperBoundIdx pred first count → pred k = false) ∧
    (upperBoundIdx pred first count < first + count →
      pred (upperBoundIdx pred first count) = true) := by
  induction count generalizing first with
  | zero =>
    simp only [upperBoundIdx]
    exact ⟨Nat.le_refl _, by omega, fun k h1 h2 => by omega, fun h => by omega⟩
  | succ n ih =>
    by_cases h : pred first
    · rw [upperBoundIdx, if_pos h]
      refine ⟨Nat.le_refl _, by omega, ?_, fun _ => h⟩
      intro k h1 h2
      omega
    · obtain ⟨ih1, ih2, ih3, ih4⟩ := ih (first + 1)
      rw [upperBoundIdx, if_neg h]
      refine ⟨by omega, by omega, ?_, by intro hlt; exact ih4 (by omega)⟩
      intro k hk1 hk2
      rcases Nat.eq_or_lt_of_le hk1 with rfl | hk
      · simpa using h
      · exact ih3 k hk hk2

/-! ### Pointwise behaviour of `swapIdx` and the rotate loop -/

theorem length_swapIdx (bs : List StringBlock) (i j : Nat) :
    (swapIdx bs i j).length = bs.length := by
  simp [swapIdx]

theorem getElem?_swapIdx_ne (bs : List StringBlock) (i j m : Nat)
    (h1 : m ≠ i) (h2 : m ≠ j) : (swapIdx bs i j)[m]? = bs[m]? := by
  rw [swapIdx, List.getElem?_set_ne (by omega), List.getElem?_set_ne (by omega)]

theorem getElem?_swapIdx_fst (bs : List StringBlock) (i j : Nat)
    (hi : i < bs.length) (hj : j < bs.length) (hne : i ≠ j) :
    (swapIdx bs i j)[i]? = bs[j]? := by
  rw [swapIdx, List.getElem?_set_ne (by omega), List.getElem?_set_self (by simpa using hi),
    List.getD_eq_getElem?_getD, List.getElem?_eq_getElem hj]
  rfl

theorem getElem?_swapIdx_snd (bs : List StringBlock) (i j : Nat)
    (hi : i < bs.length) (hj : j < bs.length) :
    (swapIdx bs i j)[j]? = bs[i]? := by
  rw [swapIdx, List.getElem?_set_self (by simpa using hj),
    List.getD_eq_getElem?_getD, List.getElem?_eq_getElem hi]
  rfl

theorem eq_take_middle_drop (bs : List StringBlock) (x y : StringBlock) (i j : Nat)
    (hij : i < j) (hj : j < bs.length) (L : List StringBlock)
    (hlen : L.length = bs.length) (hx : L[i]? = some x) (hy : L[j]? = some y)
    (hother : ∀ m, m ≠ i → m ≠ j → L[m]? = bs[m]?) :
    L = bs.take i ++
      (x :: (((bs.drop (i + 1)).take (j - (i + 1))) ++ (y :: bs.drop (j + 1)))) := by
  have hi : i < bs.length := by omega
  apply List.ext_getElem?
  intro m
  have hlen1 : (bs.take i).length = i := List.length_take_of_le (by omega)
  have hlen2 : ((bs.drop (i + 1)).take (j - (i + 1))).length = j - (i + 1) := by
    rw [List.length_take, List.length_drop]
    omega
  rcases Nat.lt_or_ge m i with hm | hm
  · rw [hother m (by omega) (by omega), List.getElem?_append_left (by omega),
      List.getElem?_take_of_lt hm]
  rcases Nat.eq_or_lt_of_le hm with rfl | hm'
  · rw [hx, List.getElem?_append_right (by omega), hlen1, Nat.sub_self,
      List.getElem?_cons_zero]
  rcases Nat.lt_or_ge m j with hmj | hmj
  · rw [hother m (by omega) (by omega), List.getElem?_append_right (by omega)]
    have hsub : m - (bs.take i).length = (m - (i + 1)) + 1 := by rw [hlen1]; omega
    rw [hsub, List.getElem?_cons_succ, List.getElem?_append_left (by omega),
      List.getElem?_take_of_lt (by omega), List.getElem?_drop]
    congr 1
    omega
  rcases Nat.eq_or_lt_of_le hmj with rfl | hm''
  · rw [hy, List.getElem?_append_right (by omega)]
    have hsub : j - (bs.take i).length = (j - (i + 1)) + 1 := by rw [hlen1]; omega
    rw [hsub, List.getElem?_cons_succ, List.getElem?_append_right (by omega), hlen2]
    have hz : j - (i + 1) - (j - (i + 1)) = 0 := by omega
    rw [hz, List.getElem?_cons_zero]
  · rw [hother m (by omega) (by omega), List.getElem?_append_right (by omega)]
    have hsub : m - (bs.take i).length = (m - (i + 1)) + 1 := by rw [hlen1]; omega
    rw [hsub, List.getElem?_cons_succ, List.getElem?_append_right (by omega), hlen2]
    have hz : m - (i + 1) - (j - (i + 1)) = (m - (j + 1)) + 1 := by omega
    rw [hz, List.getElem?_cons_succ, List.getElem?_drop]
    congr 1
    omega

theorem decomp_take_middle_drop (bs : List StringBlock) (i j : Nat)
    (hij : i < j) (hj : j < bs.length) :
    bs = bs.take i ++
      (bs.getD i default ::
        (((bs.drop (i + 1)).take (j - (i + 1))) ++ (bs.getD j default :: bs.drop (j + 1)))) := by
  refine eq_take_middle_drop bs _ _ i j hij hj bs rfl ?_ ?_ (fun m _ _ => rfl)
  · rw [List.getD_eq_getElem?_getD, List.getElem?_eq_getElem (by omega)]
    rfl
  · rw [List.getD_eq_getElem?_getD, List.getElem?_eq_getElem hj]
    rfl

theorem swapIdx_eq_append (bs : List StringBlock) (i j : Nat)
    (hij : i < j) (hj : j < bs.length) :
    swapIdx bs i j = bs.take i ++
      (bs.getD j default ::
        (((bs.drop (i + 1)).take (j - (i + 1))) ++ (bs.getD i default :: bs.drop (j + 1)))) := by
  have hi : i < bs.length := by omega
  refine eq_take_middle_drop bs _ _ i j hij hj (swapIdx bs i j) (length_swapIdx bs i j) ?_ ?_
    (fun m h1 h2 => getElem?_swapIdx_ne bs i j m h1 h2)
  · rw [getElem?_swapIdx_fst bs i j hi hj (by omega), List.getD_eq_getElem?_getD,
      List.getElem?_eq_getElem hj]
    rfl
  · rw [getElem?_swapIdx_snd bs i j hi hj, List.getD_eq_getElem?_getD,
      List.getElem?_eq_getElem hi]
    rfl

theorem perm_cons_swap_ends (x y : StringBlock) (m r : List StringBlock) :
    (x :: (m ++ y :: r)).Perm (y :: (m ++ x :: r)) := by
  induction m with
  | nil => exact List.Perm.swap y x r
  | cons a m ih =>
    exact (List.Perm.swap a x _).trans ((ih.cons a).trans (List.Perm.swap y a _))

theorem swapIdx_perm (bs : List StringBlock) (i j : Nat)
    (hij : i < j) (hj : j < bs.length) : (swapIdx bs i j).Perm bs := by
  rw [swapIdx_eq_append bs i j hij hj]
  conv_rhs => rw [decomp_take_middle_drop bs i j hij hj]
  exact (perm_cons_swap_ends _ _ _ _).append_left (bs.take i)

theorem length_swapLoopGo (idx : Nat) (k : Nat) :
    ∀ (bs : List StringBlock) (it : Nat), (swapLoopGo idx bs it k).length = bs.length := by
  induction k with
  | zero => intro bs it; rfl
  | succ n ih =>
    intro bs it
    rw [swapLoopGo, ih, length_swapIdx]

theorem getElem?_swapLoopGo (idx : Nat) (k : Nat) :
    ∀ (bs : List StringBlock) (it : Nat), it + k = idx → idx < bs.length →
    ∀ m, (swapLoopGo idx bs it k)[m]? =
      if m < it ∨ idx < m then bs[m]?
      else if m = it then bs[idx]?
      else bs[m - 1]? := by
  induction k with
  | zero =>
    intro bs it hk hidx m
    rcases Nat.lt_or_ge m it with h | h
    · rw [if_pos (Or.inl h)]
      rfl
    rcases Nat.lt_or_ge idx m with h' | h'
    · rw [if_pos (Or.inr h')]
      rfl
    · have hm : m = it := by omega
      have hm2 : m = idx := by omega
      rw [if_neg (by omega), if_pos hm, swapLoopGo, hm2]
  | succ n ih =>
    intro bs it hk hidx m
    have hit : it < idx := by omega
    rw [swapLoopGo, ih (swapIdx bs it idx) (it + 1) (by omega)
      (by rw [length_swapIdx]; exact hidx)]
    rcases Nat.lt_or_ge m it with h | h
    · rw [if_pos (Or.inl (by omega)), if_pos (Or.inl h),
        getElem?_swapIdx_ne bs it idx m (by omega) (by omega)]
    rcases Nat.lt_or_ge idx m with h' | h'
    · rw [if_pos (Or.inr h'), if_pos (Or.inr h'),
        getElem?_swapIdx_ne bs it idx m (by omega) (by omega)]
    rcases Nat.eq_or_lt_of_le h with heq0 | hmgt
    · have hm : m = it := heq0.symm
      rw [if_pos (Or.inl (by omega)), if_neg (by omega), if_pos hm, hm,
        getElem?_swapIdx_fst bs it idx (by omega) hidx (by omega)]
    rcases Nat.eq_or_lt_of_le (Nat.succ_le_of_lt hmgt) with heq | hmgt'
    · have hm : m = it + 1 := heq.symm
      rw [if_neg (by omega), if_pos hm,
        getElem?_swapIdx_snd bs it idx (by omega) hidx,
        if_neg (by omega), if_neg (by omega)]
      congr 1
      omega
    · rw [if_neg (by omega), if_neg (by omega), if_neg (by omega), if_neg (by omega),
        getElem?_swapIdx_ne bs it idx (m - 1) (by omega) (by omega)]

theorem swapLoopGo_perm (idx : Nat) (k : Nat) :
    ∀ (bs : List StringBlock) (it : Nat), it + k = idx → idx < bs.length →
    (swapLoopGo idx bs it k).Perm bs := by
  induction k with
  | zero => intro bs it hk hidx; exact List.Perm.refl bs
  | succ n ih =>
    intro bs it hk hidx
    rw [swapLoopGo]
    exact (ih (swapIdx bs it idx) (it + 1) (by omega)
      (by rw [length_swapIdx]; exact hidx)).trans
      (swapIdx_perm bs it idx (by omega) hidx)

theorem blockChanged_perm (bs : List StringBlock) (idx : Nat) (hidx : idx < bs.length) :
    (blockChanged bs idx).Perm bs := by
  rw [blockChanged]
  by_cases hre : shouldReorderBlocksAfterAddingStringToBlock bs idx
  · rw [if_pos hre, reorderBlocksAfterAddingStringToBlock]
    set it := upperBoundIdx
      (fun k => decide ((bs.getD idx default).getFreeSpace < (bs.getD k default).getFreeSpace))
      0 idx with hitdef
    obtain ⟨hub1, hub2, hub3, hub4⟩ := upperBoundIdx_spec
      (fun k => decide ((bs.getD idx default).getFreeSpace < (bs.getD k default).getFreeSpace))
      0 idx
    by_cases hit : it ≠ idx
    · have hlt : it < idx := by omega
      rw [if_pos hit]
      by_cases heqfs : (bs.getD it default).getFreeSpace = (bs.getD (idx - 1) default).getFreeSpace
      · rw [if_pos heqfs]
        exact swapIdx_perm bs it idx hlt hidx
      · rw [if_neg heqfs, swapLoopFrom]
        exact swapLoopGo_perm idx (idx - it) bs it (by omega) hidx
    · rw [if_neg hit]
  · rw [if_neg hre]

/-! ### Index formulation of the sortedness invariant -/

theorem fsAt_congr {bs1 bs2 : List StringBlock} {m1 m2 : Nat}
    (h : bs1[m1]? = bs2[m2]?) : fsAt bs1 m1 = fsAt bs2 m2 := by
  simp [fsAt, List.getD_eq_getElem?_getD, h]

theorem sorted_iff_adjacent {bs : List StringBlock} :
    sortedByFreeSpace bs ↔ ∀ i, i + 1 < bs.length → fsAt bs i ≤ fsAt bs (i + 1) := by
  rw [sortedByFreeSpace, List.chain'_iff_get]
  constructor
  · intro h i hi
    have hi2 : i < bs.length - 1 := by omega
    have := h i hi2
    simpa [fsAt, List.getD_eq_getElem?_getD, List.getElem?_eq_getElem (by omega : i < bs.length),
      List.getElem?_eq_getElem (by omega : i + 1 < bs.length), List.get_eq_getElem] using this
  · intro h i hi
    have hi2 : i + 1 < bs.length := by omega
    have := h i hi2
    simpa [fsAt, List.getD_eq_getElem?_getD, List.getElem?_eq_getElem (by omega : i < bs.length),
      List.getElem?_eq_getElem hi2, List.get_eq_getElem] using this

theorem sorted_pairs {bs : List StringBlock} (h : sortedByFreeSpace bs) :
    ∀ i j, i ≤ j → j < bs.length → fsAt bs i ≤ fsAt bs j := by
  intro i j hij hj
  rcases Nat.eq_or_lt_of_le hij with rfl | hlt
  · exact Nat.le_refl _
  · have hp : List.Pairwise (fun a b => a.getFreeSpace ≤ b.getFreeSpace) bs := by
      rw [sortedByFreeSpace] at h
      exact List.chain'_iff_pairwise.mp h
    have := List.pairwise_iff_getElem.mp hp i j (by omega) hj hlt
    simpa [fsAt, List.getD_eq_getElem?_getD, List.getElem?_eq_getElem (by omega : i < bs.length),
      List.getElem?_eq_getElem hj] using this

theorem sorted_of_adjacent {bs : List StringBlock}
    (h : ∀ i, i + 1 < bs.length → fsAt bs i ≤ fsAt bs (i + 1)) : sortedByFreeSpace bs :=
  sorted_iff_adjacent.mpr h

/-! ### The ordering-repair lemma -/

theorem sorted_blockChanged (orig : List StringBlock) (idx : Nat) (nb : StringBlock)
    (hs : sortedByFreeSpace orig) (hidx : idx < orig.length)
    (hfs : nb.getFreeSpace ≤ fsAt orig idx) :
    sortedByFreeSpace (blockChanged (orig.set idx nb) idx) := by
  set bs := orig.set idx nb with hbs
  have hbsl : bs.length = orig.length := by rw [hbs, List.length_set]
  have hfs_ne : ∀ m, m ≠ idx → fsAt bs m = fsAt orig m := by
    intro m hm
    exact fsAt_congr (by rw [hbs, List.getElem?_set_ne (fun h => hm h.symm)])
  have hfs_idx : fsAt bs idx = nb.getFreeSpace := by
    rw [fsAt, List.getD_eq_getElem?_getD, hbs, List.getElem?_set_self (by omega)]
    rfl
  have hadj : ∀ i, i + 1 < orig.length → fsAt orig i ≤ fsAt orig (i + 1) :=
    sorted_iff_adjacent.mp hs
  have hpair := sorted_pairs hs
  have hshould : shouldReorderBlocksAfterAddingStringToBlock bs idx = true ↔
      (idx ≠ 0 ∧ fsAt bs idx < fsAt bs (idx - 1)) := by
    simp [shouldReorderBlocksAfterAddingStringToBlock, fsAt]
  rw [blockChanged]
  by_cases hcond : idx ≠ 0 ∧ fsAt bs idx < fsAt bs (idx - 1)
  case neg =>
    rw [if_neg (fun h => hcond (hshould.mp h))]
    apply sorted_of_adjacent
    intro i hi
    have hi' : i + 1 < orig.length := by omega
    by_cases h1 : i + 1 = idx
    · have hiz : idx ≠ 0 := by omega
      have hge : ¬ (fsAt bs idx < fsAt bs (idx - 1)) := fun hlt => hcond ⟨hiz, hlt⟩
      have e2 : i = idx - 1 := by omega
      rw [h1, e2]
      omega
    · by_cases h2 : i = idx
      · rw [h2, hfs_idx, hfs_ne (idx + 1) (by omega)]
        calc nb.getFreeSpace ≤ fsAt orig idx := hfs
        _ ≤ fsAt orig (idx + 1) := hadj idx (by omega)
      · rw [hfs_ne i h2, hfs_ne (i + 1) h1]
        exact hadj i hi'
  case pos =>
    rw [if_pos (hshould.mpr hcond)]
    obtain ⟨hiz, hlt⟩ := hcond
    simp only [reorderBlocksAfterAddingStringToBlock]
    set pred := fun k =>
      decide ((bs.getD idx default).getFreeSpace < (bs.getD k default).getFreeSpace) with hpred
    have hpredt : ∀ k, pred k = true ↔ fsAt bs idx < fsAt bs k := by
      intro k
      simp [hpred, fsAt]
    have hpredf : ∀ k, pred k = false ↔ fsAt bs k ≤ fsAt bs idx := by
      intro k
      rw [← Bool.not_eq_true, hpredt k]
      omega
    obtain ⟨hub1, hub2, hub3, hub4⟩ := upperBoundIdx_spec pred 0 idx
    set it := upperBoundIdx pred 0 idx with hit
    have hitlt : it < idx := by
      rcases Nat.eq_or_lt_of_le hub2 with heq | h
      · exfalso
        have := (hpredf (idx - 1)).mp (hub3 (idx - 1) (by omega) (by omega))
        omega
      · omega
    have hA : ∀ k, k < it → fsAt bs k ≤ fsAt bs idx := fun k hk =>
      (hpredf k).mp (hub3 k (by omega) hk)
    have hB : fsAt bs idx < fsAt bs it := (hpredt it).mp (hub4 (by omega))
    have hC : ∀ k, it ≤ k → k < idx → fsAt bs idx < fsAt bs k := by
      intro k hk1 hk2
      calc fsAt bs idx < fsAt bs it := hB
      _ = fsAt orig it := hfs_ne it (by omega)
      _ ≤ fsAt orig k := hpair it k hk1 (by omega)
      _ = fsAt bs k := (hfs_ne k (by omega)).symm
    rw [if_pos (by omega : it ≠ idx)]
    by_cases heqfs : (bs.getD it default).getFreeSpace = (bs.getD (idx - 1) default).getFreeSpace
    case pos =>
      rw [if_pos heqfs]
      have heq2 : fsAt bs it = fsAt bs (idx - 1) := heqfs
      have hRne : ∀ m, m ≠ it → m ≠ idx → fsAt (swapIdx bs it idx) m = fsAt bs m :=
        fun m h1 h2 => fsAt_congr (getElem?_swapIdx_ne bs it idx m h1 h2)
      have hRit : fsAt (swapIdx bs it idx) it = fsAt bs idx :=
        fsAt_congr (getElem?_swapIdx_fst bs it idx (by omega) (by omega) (by omega))
      have hRidx : fsAt (swapIdx bs it idx) idx = fsAt bs it :=
        fsAt_congr (getElem?_swapIdx_snd bs it idx (by omega) (by omega))
      apply sorted_of_adjacent
      intro i hi
      rw [length_swapIdx] at hi
      have hi' : i + 1 < orig.length := by omega
      by_cases h1 : i + 1 < it
      · rw [hRne i (by omega) (by omega), hRne (i + 1) (by omega) (by omega),
          hfs_ne i (by omega), hfs_ne (i + 1) (by omega)]
        exact hadj i hi'
      by_cases h2 : i + 1 = it
      · rw [hRne i (by omega) (by omega), h2, hRit]
        exact hA i (by omega)
      by_cases h3 : i = it
      · by_cases h4 : i + 1 = idx
        · rw [h4, hRidx, h3, hRit]
          omega
        · rw [hRne (i + 1) (by omega) (by omega), h3, hRit]
          exact Nat.le_of_lt (hC (it + 1) (by omega) (by omega))
      by_cases h5 : i + 1 = idx
      · rw [hRne i (by omega) (by omega), h5, hRidx, heq2, hfs_ne i (by omega),
          hfs_ne (idx - 1) (by omega)]
        exact hpair i (idx - 1) (by omega) (by omega)
      by_cases h6 : i = idx
      · rw [h6, hRidx, hRne (idx + 1) (by omega) (by omega), heq2,
          hfs_ne (idx - 1) (by omega), hfs_ne (idx + 1) (by omega)]
        exact hpair (idx - 1) (idx + 1) (by omega) (by omega)
      · rw [hRne i (by omega) (by omega), hRne (i + 1) (by omega) (by omega),
          hfs_ne i (by omega), hfs_ne (i + 1) (by omega)]
        exact hadj i hi'
    case neg =>
      rw [if_neg heqfs, swapLoopFrom]
      have hloop := getElem?_swapLoopGo idx (idx - it) bs it (by omega) (by omega)
      have hRlt : ∀ m, m < it ∨ idx < m → fsAt (swapLoopGo idx bs it (idx - it)) m = fsAt bs m :=
        fun m hm => fsAt_congr (by rw [hloop m, if_pos hm])
      have hRit : fsAt (swapLoopGo idx bs it (idx - it)) it = fsAt bs idx :=
        fsAt_congr (by rw [hloop it, if_neg (by omega), if_pos rfl])
      have hRmid : ∀ m, it < m → m ≤ idx →
          fsAt (swapLoopGo idx bs it (idx - it)) m = fsAt bs (m - 1) :=
        fun m h1 h2 => fsAt_congr (by rw [hloop m, if_neg (by omega), if_neg (by omega)])
      apply sorted_of_adjacent
      intro i hi
      rw [length_swapLoopGo] at hi
      have hi' : i + 1 < orig.length := by omega
      by_cases h1 : i + 1 < it
      · rw [hRlt i (by omega), hRlt (i + 1) (by omega),
          hfs_ne i (by omega), hfs_ne (i + 1) (by omega)]
        exact hadj i hi'
      by_cases h2 : i + 1 = it
      · rw [hRlt i (by omega), h2, hRit]
        exact hA i (by omega)
      by_cases h3 : i = it
      · rw [h3, hRit, hRmid (it + 1) (by omega) (by omega)]
        have : it + 1 - 1 = it := by omega
        rw [this]
        exact Nat.le_of_lt hB
      by_cases h4 : i + 1 ≤ idx
      · rw [hRmid i (by omega) (by omega), hRmid (i + 1) (by omega) (by omega)]
        have h5 : i + 1 - 1 = i := by omega
        rw [h5, hfs_ne (i - 1) (by omega), hfs_ne i (by omega)]
        have h6 : i - 1 + 1 = i := by omega
        have := hadj (i - 1) (by omega)
        rw [h6] at this
        exact this
      by_cases h7 : i = idx
      · rw [h7, hRmid idx (by omega) (by omega), hRlt (idx + 1) (by omega),
          hfs_ne (idx - 1) (by omega), hfs_ne (idx + 1) (by omega)]
        exact hpair (idx - 1) (idx + 1) (by omega) (by omega)
      · rw [hRlt i (by omega), hRlt (i + 1) (by omega),
          hfs_ne i (by omega), hfs_ne (i + 1) (by omega)]
        exact hadj i hi'

/-! ### Elementary facts about `addString` -/

theorem addString_fail (NT : Bool) (b : StringBlock) (s : List Nat)
    (h : b.canTakeStringOfLength NT s.length = false) :
    b.addString NT s = (View.nullCharView, b) := by
  rw [StringBlock.addString, if_pos (by simp [h])]

theorem addString_bufId (NT : Bool) (b : StringBlock) (s : List Nat) :
    ((b.addString NT s).2).bufId = b.bufId := by
  rw [StringBlock.addString]
  split <;> rfl

theorem addString_size (NT : Bool) (b : StringBlock) (s : List Nat) :
    ((b.addString NT s).2).size = b.size := by
  rw [StringBlock.addString]
  split <;> rfl

theorem addString_view (NT : Bool) (b : StringBlock) (s : List Nat)
    (h : b.canTakeStringOfLength NT s.length = true) :
    (b.addString NT s).1 = View.ptr b.bufId b.usedSpace s.length := by
  rw [StringBlock.addString, if_neg (by simp [h])]

theorem addString_usedSpace_eq (NT : Bool) (b : StringBlock) (s : List Nat)
    (h : b.canTakeStringOfLength NT s.length = true) :
    ((b.addString NT s).2).usedSpace =
      b.usedSpace + getSpaceRequiredToStoreStringOfLength NT s.length := by
  rw [StringBlock.addString, if_neg (by simp [h])]

theorem addString_usedSpace_ge (NT : Bool) (b : StringBlock) (s : List Nat) :
    b.usedSpace ≤ ((b.addString NT s).2).usedSpace := by
  rw [StringBlock.addString]
  split
  · exact Nat.le_refl _
  · exact Nat.le_add_right _ _

theorem addString_freeSpace_le (NT : Bool) (b : StringBlock) (s : List Nat) :
    ((b.addString NT s).2).getFreeSpace ≤ b.getFreeSpace := by
  rw [StringBlock.addString]
  split
  · exact Nat.le_refl _
  · exact Nat.sub_le_sub_left (Nat.le_add_right _ _) _

theorem addString_memory_length (NT : Bool) (b : StringBlock) (s : List Nat) :
    ((b.addString NT s).2).memory.length = b.memory.length := by
  rw [StringBlock.addString]
  split
  · rfl
  · simp only
    split <;> simp [length_writeChars]

theorem canTake_le_size (NT : Bool) (b : StringBlock) (length : Nat)
    (h : b.canTakeStringOfLength NT length = true) (hb : b.usedSpace ≤ b.size) :
    b.usedSpace + getSpaceRequiredToStoreStringOfLength NT length ≤ b.size := by
  have hfree : getSpaceRequiredToStoreStringOfLength NT length ≤ b.getFreeSpace := by
    simp [StringBlock.canTakeStringOfLength] at h
    exact h.1
  rw [StringBlock.getFreeSpace] at hfree
  omega

theorem addString_usedSpace_le (NT : Bool) (b : StringBlock) (s : List Nat)
    (hb : b.usedSpace ≤ b.size) :
    ((b.addString NT s).2).usedSpace ≤ ((b.addString NT s).2).size := by
  by_cases h : b.canTakeStringOfLength NT s.length = true
  · rw [addString_usedSpace_eq NT b s h, addString_size]
    exact canTake_le_size NT b s.length h hb
  · rw [addString_fail NT b s (by simpa using h)]
    exact hb

theorem addString_wf (NT : Bool) (b : StringBlock) (s : List Nat)
    (hwf : wfBlock b) : wfBlock (b.addString NT s).2 := by
  obtain ⟨h1, h2, h3⟩ := hwf
  exact ⟨addString_usedSpace_le NT b s h1,
    by rw [addString_memory_length, addString_size]; exact h2,
    by rw [addString_size]; exact h3⟩

theorem getElem?_addString_memory_lt (NT : Bool) (b : StringBlock) (s : List Nat)
    (i : Nat) (hi : i < b.usedSpace) :
    ((b.addString NT s).2).memory[i]? = b.memory[i]? := by
  rw [StringBlock.addString]
  split
  · rfl
  · simp only
    split
    · rw [List.getElem?_set_ne (by omega), getElem?_writeChars_lt s b.memory b.usedSpace i hi]
    · rw [getElem?_writeChars_lt s b.memory b.usedSpace i hi]

theorem take_drop_set_outside (mem : List Nat) (d n j v : Nat)
    (hj : d + n ≤ j) : (((mem.set j v).drop d).take n) = ((mem.drop d).take n) := by
  apply List.ext_getElem?
  intro m
  rcases Nat.lt_or_ge m n with hm | hm
  · rw [List.getElem?_take_of_lt hm, List.getElem?_take_of_lt hm, List.getElem?_drop,
      List.getElem?_drop, List.getElem?_set_ne (by omega)]
  · rw [List.getElem?_take_eq_none hm, List.getElem?_take_eq_none hm]

theorem addString_readback (NT : Bool) (b : StringBlock) (s : List Nat)
    (h : b.canTakeStringOfLength NT s.length = true) (hwf : wfBlock b)
    (hlen : s.length ≤ SIZE_MAX) :
    ((((b.addString NT s).2).memory.drop b.usedSpace).take s.length) = s := by
  obtain ⟨h1, h2, h3⟩ := hwf
  have hfit : b.usedSpace + s.length ≤ b.memory.length := by
    have := canTake_le_size NT b s.length h h1
    have := length_le_getSpaceRequired NT s.length hlen
    omega
  rw [StringBlock.addString, if_neg (by simp [h])]
  simp only
  split
  · rw [take_drop_set_outside _ _ _ _ _ (Nat.le_refl _),
      writeChars_readback s b.memory b.usedSpace hfit]
  · rw [writeChars_readback s b.memory b.usedSpace hfit]

/-! ### Block selection: characterization under the sortedness invariant -/

theorem canTake_mono (NT : Bool) (length : Nat) {a b : StringBlock}
    (hab : a.getFreeSpace ≤ b.getFreeSpace)
    (h : a.canTakeStringOfLength NT length = true) :
    b.canTakeStringOfLength NT length = true := by
  simp only [StringBlock.canTakeStringOfLength, Bool.and_eq_true, decide_eq_true_eq] at h ⊢
  exact ⟨Nat.le_trans h.1 hab, h.2⟩

theorem findBlock_spec (NT : Bool) (p : StringPool) (length : Nat)
    (hs : sortedByFreeSpace p.blocks) :
    p.findBlockCapableOfStoringStringOfLength NT length ≤ p.blocks.length ∧
    (p.findBlockCapableOfStoringStringOfLength NT length < p.blocks.length →
      (p.blocks.getD (p.findBlockCapableOfStoringStringOfLength NT length)
        default).canTakeStringOfLength NT length = true) ∧
    (∀ k, k < p.findBlockCapableOfStoringStringOfLength NT length →
      (p.blocks.getD k default).canTakeStringOfLength NT length = false) := by
  simp only [StringPool.findBlockCapableOfStoringStringOfLength]
  set pred := fun i => ! (p.blocks.getD i default).canTakeStringOfLength NT length with hpred
  set first := p.getFirstBlockMaybeCapableOfStoringStringOfLength NT length with hfirst
  have hfle : first ≤ p.blocks.length := by
    rw [hfirst, StringPool.getFirstBlockMaybeCapableOfStoringStringOfLength]
    split
    · omega
    · omega
  obtain ⟨hlb1, hlb2, hlb3, hlb4⟩ := lowerBoundIdx_spec pred first (p.blocks.length - first)
  set r := lowerBoundIdx pred first (p.blocks.length - first) with hr
  have hbefore : ∀ k, k < first →
      (p.blocks.getD k default).canTakeStringOfLength NT length = false := by
    intro k hk
    rw [hfirst, StringPool.getFirstBlockMaybeCapableOfStoringStringOfLength] at hk
    by_cases hcond : 2 < p.blocks.length ∧
        ¬ (p.blocks.getD (p.blocks.length - 2) default).canTakeStringOfLength NT length
    · rw [if_pos hcond] at hk
      by_contra hct
      have hct' : (p.blocks.getD k default).canTakeStringOfLength NT length = true := by
        simpa using hct
      have hmono := canTake_mono NT length
        (sorted_pairs hs k (p.blocks.length - 2) (by omega) (by omega)) hct'
      exact hcond.2 (by simpa [fsAt] using hmono)
    · rw [if_neg hcond] at hk
      omega
  refine ⟨by omega, ?_, ?_⟩
  · intro hlt
    have := hlb4 (by omega)
    rw [hpred] at this
    simpa using this
  · intro k hk
    rcases Nat.lt_or_ge k first with h | h
    · exact hbefore k h
    · have := hlb3 k h hk
      rw [hpred] at this
      simpa using this

/-! ### The freshly created block -/

theorem mkBlock_getFreeSpace (id c : Nat) : (StringBlock.mkBlock id c).getFreeSpace = c := by
  simp [StringBlock.mkBlock, StringBlock.getFreeSpace]

theorem mkBlock_wf (id c : Nat) (hc : c ≤ SIZE_MAX) : wfBlock (StringBlock.mkBlock id c) := by
  refine ⟨Nat.zero_le _, ?_, hc⟩
  simp [StringBlock.mkBlock]

theorem mkBlock_canTake (NT : Bool) (id cap length : Nat)
    (hv : isStringLengthValid NT length = true) :
    (StringBlock.mkBlock id
      (max cap (getSpaceRequiredToStoreStringOfLength NT length))).canTakeStringOfLength
        NT length = true := by
  simp only [StringBlock.canTakeStringOfLength, mkBlock_getFreeSpace, hv, Bool.and_true,
    decide_eq_true_eq, ge_iff_le]
  exact Nat.le_max_right _ _

theorem getD_mem (bs : List StringBlock) (i : Nat) (hi : i < bs.length) :
    bs.getD i default ∈ bs := by
  rw [List.getD_eq_getElem?_getD, List.getElem?_eq_getElem hi]
  exact List.getElem_mem hi

theorem fsAt_append_left (bs : List StringBlock) (x : StringBlock) (i : Nat)
    (hi : i < bs.length) : fsAt (bs ++ [x]) i = fsAt bs i :=
  fsAt_congr (List.getElem?_append_left hi)

theorem fsAt_append_last (bs : List StringBlock) (x : StringBlock) :
    fsAt (bs ++ [x]) bs.length = x.getFreeSpace := by
  rw [fsAt, List.getD_eq_getElem?_getD, List.getElem?_append_right (Nat.le_refl _),
    Nat.sub_self]
  rfl

theorem sorted_append_new (NT : Bool) (p : StringPool) (length : Nat)
    (hs : sortedByFreeSpace p.blocks) (hwf : wfPool p) (hlen : length ≤ SIZE_MAX)
    (hnone : ∀ k, k < p.blocks.length →
      (p.blocks.getD k default).canTakeStringOfLength NT length = false) :
    sortedByFreeSpace (p.blocks ++
      [StringBlock.mkBlock p.nextId
        (max p.defaultBlockCapacity (getSpaceRequiredToStoreStringOfLength NT length))]) := by
  apply sorted_of_adjacent
  intro i hi
  rw [List.length_append, List.length_singleton] at hi
  by_cases hlast : i + 1 = p.blocks.length
  · rw [hlast, fsAt_append_last, fsAt_append_left _ _ _ (by omega), mkBlock_getFreeSpace]
    by_cases hv : isStringLengthValid NT length = true
    · have := hnone i (by omega)
      simp only [StringBlock.canTakeStringOfLength, hv, Bool.and_true,
        decide_eq_true_eq, Bool.decide_eq_false, ge_iff_le] at this
      have hreq : ¬ (getSpaceRequiredToStoreStringOfLength NT length ≤
          (p.blocks.getD i default).getFreeSpace) := by simpa using this
      have := Nat.le_max_right p.defaultBlockCapacity
        (getSpaceRequiredToStoreStringOfLength NT length)
      rw [fsAt]
      omega
    · have hNT : NT = true := by
        cases NT with
        | false => simp [isStringLengthValid] at hv
        | true => rfl
      have hvmax : length = SIZE_MAX := by
        rw [hNT] at hv
        simpa [isStringLengthValid] using hv
      have hreq : getSpaceRequiredToStoreStringOfLength NT length = SIZE_MAX := by
        rw [hNT, hvmax]
        simp [getSpaceRequiredToStoreStringOfLength, isStringLengthValid]
      have hub : fsAt p.blocks i ≤ SIZE_MAX := by
        have hmem : p.blocks.getD i default ∈ p.blocks := getD_mem _ _ (by omega)
        have := (hwf.1 _ hmem).1.2.2
        rw [fsAt, StringBlock.getFreeSpace]
        omega
      have := Nat.le_max_right p.defaultBlockCapacity
        (getSpaceRequiredToStoreStringOfLength NT length)
      omega
  · rw [fsAt_append_left _ _ _ (by omega), fsAt_append_left _ _ _ (by omega)]
    exact sorted_iff_adjacent.mp hs i (by omega)

/-! ### List and `find?` helpers for buffer lookup -/

theorem set_self_of_getElem? (l : List Nat) (i : Nat) (v : Nat) (h : l[i]? = some v) :
    l.set i v = l := by
  apply List.ext_getElem?
  intro m
  by_cases hm : m = i
  · rw [hm, List.getElem?_set_self (by
      have := List.getElem?_eq_some_iff.mp h
      exact this.1), h]
  · rw [List.getElem?_set_ne (fun hh => hm hh.symm)]

theorem mem_set_self (bs : List StringBlock) (idx : Nat) (nb : StringBlock)
    (hidx : idx < bs.length) : nb ∈ bs.set idx nb := by
  have : (bs.set idx nb)[idx]? = some nb := List.getElem?_set_self (by omega)
  exact List.getElem?_mem this

theorem mem_set_of_mem_ne (bs : List StringBlock) (idx : Nat) (nb x : StringBlock)
    (hx : x ∈ bs) (hne : x ≠ bs.getD idx default) : x ∈ bs.set idx nb := by
  obtain ⟨m, hm⟩ := List.getElem?_of_mem hx
  have hmi : m ≠ idx := by
    intro heq
    apply hne
    rw [List.getD_eq_getElem?_getD, ← heq, hm]
    rfl
  exact List.getElem?_mem (by rw [List.getElem?_set_ne (fun hh => hmi hh.symm), hm])

theorem slice_eq_of_getElem? (m1 m2 : List Nat) (off l : Nat)
    (h : ∀ i, i < off + l → m1[i]? = m2[i]?) :
    ((m1.drop off).take l) = ((m2.drop off).take l) := by
  apply List.ext_getElem?
  intro n
  rcases Nat.lt_or_ge n l with hn | hn
  · rw [List.getElem?_take_of_lt hn, List.getElem?_take_of_lt hn, List.getElem?_drop,
      List.getElem?_drop, h (off + n) (by omega)]
  · rw [List.getElem?_take_eq_none hn, List.getElem?_take_eq_none hn]

theorem find?_bufId_eq (bs : List StringBlock) (hn : (bs.map StringBlock.bufId).Nodup)
    (b : StringBlock) (hb : b ∈ bs) (id : Nat) (hid : b.bufId = id) :
    bs.find? (fun blk => blk.bufId = id) = some b := by
  induction bs with
  | nil => simp at hb
  | cons x xs ih =>
    rw [List.map_cons, List.nodup_cons] at hn
    by_cases hx : x.bufId = id
    · rw [List.find?_cons_of_pos _ (by simpa using hx)]
      rcases List.mem_cons.mp hb with rfl | hbxs
      · rfl
      · exfalso
        apply hn.1
        rw [hx, ← hid]
        exact List.mem_map_of_mem StringBlock.bufId hbxs
    · rw [List.find?_cons_of_neg _ (by simpa using hx)]
      rcases List.mem_cons.mp hb with rfl | hbxs
      · exact absurd hid hx
      · exact ih hn.2 hbxs

/-! ### The shape of one `add` call -/

theorem findBlock_le (NT : Bool) (p : StringPool) (length : Nat) :
    p.findBlockCapableOfStoringStringOfLength NT length ≤ p.blocks.length := by
  simp only [StringPool.findBlockCapableOfStoringStringOfLength]
  have hfle : p.getFirstBlockMaybeCapableOfStoringStringOfLength NT length ≤
      p.blocks.length := by
    rw [StringPool.getFirstBlockMaybeCapableOfStoringStringOfLength]
    split
    · omega
    · omega
  have := (lowerBoundIdx_spec
    (fun i => ! (p.blocks.getD i default).canTakeStringOfLength NT length)
    (p.getFirstBlockMaybeCapableOfStoringStringOfLength NT length)
    (p.blocks.length - p.getFirstBlockMaybeCapableOfStoringStringOfLength NT length)).2.1
  omega

theorem add_shape (NT : Bool) (p : StringPool) (s : List Nat) :
    ∃ (bs1 : List StringBlock) (idx nid : Nat),
      idx < bs1.length ∧
      (p.add NT s).1 = ((bs1.getD idx default).addString NT s).1 ∧
      (p.add NT s).2.blocks =
        blockChanged (bs1.set idx ((bs1.getD idx default).addString NT s).2) idx ∧
      (p.add NT s).2.defaultBlockCapacity = p.defaultBlockCapacity ∧
      (p.add NT s).2.nextId = nid ∧
      ((bs1 = p.blocks ∧ nid = p.nextId ∧
          idx = p.findBlockCapableOfStoringStringOfLength NT s.length ∧
          idx < p.blocks.length) ∨
       (bs1 = p.blocks ++ [StringBlock.mkBlock p.nextId
            (max p.defaultBlockCapacity
              (getSpaceRequiredToStoreStringOfLength NT s.length))] ∧
          nid = p.nextId + 1 ∧ idx = p.blocks.length ∧
          p.findBlockCapableOfStoringStringOfLength NT s.length = p.blocks.length)) := by
  have hle := findBlock_le NT p s.length
  simp only [StringPool.add, StringPool.findOrCreateBlockCapableOfStoringStringOfLength]
  by_cases hfound : p.findBlockCapableOfStoringStringOfLength NT s.length ≠ p.blocks.length
  · rw [if_pos hfound]
    exact ⟨p.blocks, p.findBlockCapableOfStoringStringOfLength NT s.length, p.nextId,
      by omega, rfl, rfl, rfl, rfl, Or.inl ⟨rfl, rfl, rfl, by omega⟩⟩
  · rw [if_neg hfound]
    have heq : p.findBlockCapableOfStoringStringOfLength NT s.length = p.blocks.length := by
      omega
    exact ⟨p.blocks ++ [StringBlock.mkBlock p.nextId
      (max p.defaultBlockCapacity (getSpaceRequiredToStoreStringOfLength NT s.length))],
      p.blocks.length, p.nextId + 1, by simp, rfl, rfl, rfl, rfl,
      Or.inr ⟨rfl, rfl, rfl, heq⟩⟩

theorem map_bufId_set_addString (NT : Bool) (s : List Nat) (bs1 : List StringBlock)
    (idx : Nat) (hidx : idx < bs1.length) :
    ((bs1.set idx ((bs1.getD idx default).addString NT s).2).map StringBlock.bufId)
      = bs1.map StringBlock.bufId := by
  have hb : ((bs1.getD idx default).addString NT s).2.bufId =
      (bs1.getD idx default).bufId := addString_bufId NT _ s
  rw [List.map_set, hb]
  apply set_self_of_getElem?
  rw [List.getElem?_map, List.getD_eq_getElem?_getD, List.getElem?_eq_getElem hidx]
  rfl

theorem add_preserves (NT : Bool) (p : StringPool) (s : List Nat)
    (hwf : wfPool p) (hs : sortedByFreeSpace p.blocks) (hlen : s.length ≤ SIZE_MAX) :
    wfPool (p.add NT s).2 ∧ sortedByFreeSpace ((p.add NT s).2).blocks := by
  obtain ⟨bs1, idx, nid, hidx, hview, hblocks, hcap, hnid, hcase⟩ := add_shape NT p s
  have hbs1wf : ∀ b ∈ bs1, wfBlock b ∧ b.bufId < nid := by
    rcases hcase with ⟨h1, h2, _, _⟩ | ⟨h1, h2, _, _⟩
    · rw [h1, h2]
      exact hwf.1
    · rw [h1, h2]
      intro b hb
      rcases List.mem_append.mp hb with hmem | hmem
      · have := hwf.1 b hmem
        exact ⟨this.1, by omega⟩
      · rw [List.mem_singleton] at hmem
        subst hmem
        refine ⟨mkBlock_wf _ _ ?_, by simp [StringBlock.mkBlock]⟩
        exact Nat.max_le.mpr ⟨hwf.2.2, getSpaceRequired_le_SIZE_MAX NT s.length hlen⟩
  have hbs1nodup : (bs1.map StringBlock.bufId).Nodup := by
    rcases hcase with ⟨h1, _, _, _⟩ | ⟨h1, _, _, _⟩
    · rw [h1]
      exact hwf.2.1
    · rw [h1, List.map_append, List.nodup_append]
      refine ⟨hwf.2.1, List.nodup_singleton _, ?_⟩
      intro a ha hb
      rw [List.map_singleton, List.mem_singleton] at hb
      obtain ⟨b, hbmem, hbeq⟩ := List.mem_map.mp ha
      have := (hwf.1 b hbmem).2
      simp only [StringBlock.mkBlock] at hb
      omega
  have hbs1sorted : sortedByFreeSpace bs1 := by
    rcases hcase with ⟨h1, _, _, _⟩ | ⟨h1, _, _, hfind⟩
    · rw [h1]
      exact hs
    · rw [h1]
      apply sorted_append_new NT p s.length hs hwf hlen
      intro k hk
      exact (findBlock_spec NT p s.length hs).2.2 k (by omega)
  have hperm : (blockChanged (bs1.set idx ((bs1.getD idx default).addString NT s).2)
      idx).Perm (bs1.set idx ((bs1.getD idx default).addString NT s).2) :=
    blockChanged_perm _ idx (by rw [List.length_set]; exact hidx)
  have hLnodup : ((bs1.set idx
      ((bs1.getD idx default).addString NT s).2).map StringBlock.bufId).Nodup := by
    rw [map_bufId_set_addString NT s bs1 idx hidx]
    exact hbs1nodup
  constructor
  · refine ⟨?_, ?_, ?_⟩
    · intro b hb
      rw [hblocks] at hb
      have hbL := hperm.mem_iff.mp hb
      rcases List.mem_or_eq_of_mem_set hbL with hmem | rfl
      · rw [hnid]
        exact hbs1wf b hmem
      · have hbiwf := hbs1wf _ (getD_mem bs1 idx hidx)
        rw [hnid]
        exact ⟨addString_wf NT _ s hbiwf.1, by rw [addString_bufId]; exact hbiwf.2⟩
    · rw [hblocks]
      exact ((hperm.map StringBlock.bufId).nodup_iff).mpr hLnodup
    · rw [hcap]
      exact hwf.2.2
  · rw [hblocks]
    exact sorted_blockChanged bs1 idx _ hbs1sorted hidx
      (addString_freeSpace_le NT (bs1.getD idx default) s)

theorem getD_append_last (bs : List StringBlock) (x : StringBlock) :
    (bs ++ [x]).getD bs.length default = x := by
  rw [List.getD_eq_getElem?_getD, List.getElem?_append_right (Nat.le_refl _), Nat.sub_self]
  rfl

theorem readView_add (NT : Bool) (p : StringPool) (s : List Nat) (v : View)
    (hwf : wfPool p) (hlive : viewLive p v) :
    readView (p.add NT s).2 v = readView p v ∧ viewLive (p.add NT s).2 v := by
  obtain ⟨bs1, idx, nid, hidx, hview, hblocks, hcap, hnid, hcase⟩ := add_shape NT p s
  cases v with
  | nullCharView => exact ⟨rfl, trivial⟩
  | ptr b off l =>
    obtain ⟨blk, hmem, hbid, hofs⟩ := hlive
    have hbs1nodup : (bs1.map StringBlock.bufId).Nodup := by
      rcases hcase with ⟨h1, _, _, _⟩ | ⟨h1, _, _, _⟩
      · rw [h1]
        exact hwf.2.1
      · rw [h1, List.map_append, List.nodup_append]
        refine ⟨hwf.2.1, List.nodup_singleton _, ?_⟩
        intro a ha hb
        rw [List.map_singleton, List.mem_singleton] at hb
        obtain ⟨bb, hbmem, hbeq⟩ := List.mem_map.mp ha
        have := (hwf.1 bb hbmem).2
        simp only [StringBlock.mkBlock] at hb
        omega
    have hblkbs1 : blk ∈ bs1 := by
      rcases hcase with ⟨h1, _, _, _⟩ | ⟨h1, _, _, _⟩
      · rw [h1]
        exact hmem
      · rw [h1]
        exact List.mem_append.mpr (Or.inl hmem)
    have hperm : (blockChanged (bs1.set idx ((bs1.getD idx default).addString NT s).2)
        idx).Perm (bs1.set idx ((bs1.getD idx default).addString NT s).2) :=
      blockChanged_perm _ idx (by rw [List.length_set]; exact hidx)
    have hLnodup : ((bs1.set idx
        ((bs1.getD idx default).addString NT s).2).map StringBlock.bufId).Nodup := by
      rw [map_bufId_set_addString NT s bs1 idx hidx]
      exact hbs1nodup
    have hresnodup : (((blockChanged (bs1.set idx
        ((bs1.getD idx default).addString NT s).2) idx)).map StringBlock.bufId).Nodup :=
      ((hperm.map StringBlock.bufId).nodup_iff).mpr hLnodup
    have hfind_p : p.blocks.find? (fun blkk => blkk.bufId = b) = some blk :=
      find?_bufId_eq p.blocks hwf.2.1 blk hmem b hbid
    by_cases hbi : (bs1.getD idx default).bufId = b
    · have hbiblk : blk = bs1.getD idx default := by
        rcases hcase with ⟨h1, h2, _, hlt⟩ | ⟨h1, h2, hidx2, _⟩
        · have hbimem : bs1.getD idx default ∈ p.blocks := by
            rw [← h1]
            exact getD_mem bs1 idx hidx
          exact List.inj_on_of_nodup_map hwf.2.1 hmem hbimem (by rw [hbid, hbi])
        · exfalso
          have hbival : bs1.getD idx default = StringBlock.mkBlock p.nextId
              (max p.defaultBlockCapacity
                (getSpaceRequiredToStoreStringOfLength NT s.length)) := by
            rw [h1, hidx2]
            exact getD_append_last _ _
          have hlt2 : blk.bufId < p.nextId := (hwf.1 blk hmem).2
          rw [hbival] at hbi
          simp only [StringBlock.mkBlock] at hbi
          omega
      have hnbmem : ((bs1.getD idx default).addString NT s).2 ∈
          blockChanged (bs1.set idx ((bs1.getD idx default).addString NT s).2) idx :=
        hperm.mem_iff.mpr (mem_set_self bs1 idx _ hidx)
      have hnbid : ((bs1.getD idx default).addString NT s).2.bufId = b := by
        rw [addString_bufId]
        exact hbi
      have hfind' : (blockChanged (bs1.set idx
          ((bs1.getD idx default).addString NT s).2) idx).find?
            (fun blkk => blkk.bufId = b) = some ((bs1.getD idx default).addString NT s).2 :=
        find?_bufId_eq _ hresnodup _ hnbmem b hnbid
      constructor
      · simp only [readView]
        rw [hblocks, hfind', hfind_p]
        have hslice : ∀ i, i < off + l →
            (((bs1.getD idx default).addString NT s).2).memory[i]? =
              blk.memory[i]? := by
          intro i hi
          rw [hbiblk]
          exact getElem?_addString_memory_lt NT _ s i (by rw [hbiblk] at hofs; omega)
        exact congrArg some (slice_eq_of_getElem? _ blk.memory off l hslice)
      · refine ⟨_, by rw [hblocks]; exact hnbmem, hnbid, ?_⟩
        have := addString_usedSpace_ge NT (bs1.getD idx default) s
        rw [hbiblk] at hofs
        omega
    · have hblkne : blk ≠ bs1.getD idx default := fun heq => hbi (by rw [← heq, hbid])
      have hblkL : blk ∈ bs1.set idx ((bs1.getD idx default).addString NT s).2 :=
        mem_set_of_mem_ne bs1 idx _ blk hblkbs1 hblkne
      have hblkres : blk ∈ blockChanged (bs1.set idx
          ((bs1.getD idx default).addString NT s).2) idx :=
        hperm.mem_iff.mpr hblkL
      have hfind' : (blockChanged (bs1.set idx
          ((bs1.getD idx default).addString NT s).2) idx).find?
            (fun blkk => blkk.bufId = b) = some blk :=
        find?_bufId_eq _ hresnodup blk hblkres b hbid
      constructor
      · simp only [readView]
        rw [hblocks, hfind', hfind_p]
      · exact ⟨blk, by rw [hblocks]; exact hblkres, hbid, hofs⟩

theorem valid_of_lt_SIZE_MAX (NT : Bool) (length : Nat) (hlen : length < SIZE_MAX) :
    isStringLengthValid NT length = true := by
  cases NT with
  | false => rfl
  | true => simp [isStringLengthValid]; omega

theorem add_success (NT : Bool) (p : StringPool) (s : List Nat)
    (hwf : wfPool p) (hs : sortedByFreeSpace p.blocks) (hlen : s.length < SIZE_MAX) :
    ∃ bi : StringBlock,
      (p.add NT s).1 = View.ptr bi.bufId bi.usedSpace s.length ∧
      (bi ∈ p.blocks ∨ bi.bufId = p.nextId) ∧
      readView (p.add NT s).2 (p.add NT s).1 = some s ∧
      viewLive (p.add NT s).2 (p.add NT s).1 := by
  obtain ⟨bs1, idx, nid, hidx, hview, hblocks, hcap, hnid, hcase⟩ := add_shape NT p s
  have hvalid : isStringLengthValid NT s.length = true := valid_of_lt_SIZE_MAX NT s.length hlen
  have hbiwf : wfBlock (bs1.getD idx default) ∧
      (bs1.getD idx default ∈ p.blocks ∨ (bs1.getD idx default).bufId = p.nextId) ∧
      (bs1.getD idx default).canTakeStringOfLength NT s.length = true := by
    rcases hcase with ⟨h1, h2, hidx2, hlt⟩ | ⟨h1, h2, hidx2, hfind⟩
    · have hbimem : bs1.getD idx default ∈ p.blocks := by
        rw [← h1]
        exact getD_mem bs1 idx hidx
      refine ⟨(hwf.1 _ hbimem).1, Or.inl hbimem, ?_⟩
      have := (findBlock_spec NT p s.length hs).2.1 (by omega)
      rw [h1, hidx2]
      exact this
    · have hbival : bs1.getD idx default = StringBlock.mkBlock p.nextId
        (max p.defaultBlockCapacity (getSpaceRequiredToStoreStringOfLength NT s.length)) := by
        rw [h1, hidx2]
        exact getD_append_last _ _
      rw [hbival]
      refine ⟨mkBlock_wf _ _ (Nat.max_le.mpr
          ⟨hwf.2.2, getSpaceRequired_le_SIZE_MAX NT s.length (by omega)⟩),
        Or.inr (by simp [StringBlock.mkBlock]), mkBlock_canTake NT _ _ s.length hvalid⟩
  obtain ⟨hwfbi, hbimem, hcan⟩ := hbiwf
  have hbs1nodup : (bs1.map StringBlock.bufId).Nodup := by
    rcases hcase with ⟨h1, _, _, _⟩ | ⟨h1, _, _, _⟩
    · rw [h1]
      exact hwf.2.1
    · rw [h1, List.map_append, List.nodup_append]
      refine ⟨hwf.2.1, List.nodup_singleton _, ?_⟩
      intro a ha hb
      rw [List.map_singleton, List.mem_singleton] at hb
      obtain ⟨bb, hbmem, hbeq⟩ := List.mem_map.mp ha
      have := (hwf.1 bb hbmem).2
      simp only [StringBlock.mkBlock] at hb
      omega
  have hperm : (blockChanged (bs1.set idx ((bs1.getD idx default).addString NT s).2)
      idx).Perm (bs1.set idx ((bs1.getD idx default).addString NT s).2) :=
    blockChanged_perm _ idx (by rw [List.length_set]; exact hidx)
  have hresnodup : (((blockChanged (bs1.set idx
      ((bs1.getD idx default).addString NT s).2) idx)).map StringBlock.bufId).Nodup := by
    refine ((hperm.map StringBlock.bufId).nodup_iff).mpr ?_
    rw [map_bufId_set_addString NT s bs1 idx hidx]
    exact hbs1nodup
  have hnbmem : ((bs1.getD idx default).addString NT s).2 ∈
      blockChanged (bs1.set idx ((bs1.getD idx default).addString NT s).2) idx :=
    hperm.mem_iff.mpr (mem_set_self bs1 idx _ hidx)
  have hnbid : ((bs1.getD idx default).addString NT s).2.bufId =
      (bs1.getD idx default).bufId := addString_bufId NT _ s
  have hfind' : (blockChanged (bs1.set idx
      ((bs1.getD idx default).addString NT s).2) idx).find?
        (fun blkk => blkk.bufId = (bs1.getD idx default).bufId) =
        some ((bs1.getD idx default).addString NT s).2 :=
    find?_bufId_eq _ hresnodup _ hnbmem _ hnbid
  have husedeq := addString_usedSpace_eq NT (bs1.getD idx default) s hcan
  have hreqge := length_le_getSpaceRequired NT s.length (by omega)
  refine ⟨bs1.getD idx default, ?_, hbimem, ?_, ?_⟩
  · rw [hview]
    exact addString_view NT _ s hcan
  · rw [hview, addString_view NT _ s hcan]
    simp only [readView]
    rw [hblocks, hfind']
    exact congrArg some (addString_readback NT _ s hcan hwfbi (by omega))
  · rw [hview, addString_view NT _ s hcan]
    refine ⟨_, by rw [hblocks]; exact hnbmem, hnbid, ?_⟩
    omega

theorem add_blockCount (NT : Bool) (p : StringPool) (s : List Nat)
    (hs : sortedByFreeSpace p.blocks) :
    ((∃ b ∈ p.blocks, b.canTakeStringOfLength NT s.length = true) →
      (p.add NT s).2.getBlockCount = p.getBlockCount) ∧
    ((∀ b ∈ p.blocks, b.canTakeStringOfLength NT s.length = false) →
      (p.add NT s).2.getBlockCount = p.getBlockCount + 1) := by
  obtain ⟨bs1, idx, nid, hidx, hview, hblocks, hcap, hnid, hcase⟩ := add_shape NT p s
  have hlen' : (p.add NT s).2.getBlockCount = bs1.length := by
    rw [StringPool.getBlockCount, hblocks]
    rw [(blockChanged_perm _ idx (by rw [List.length_set]; exact hidx)).length_eq,
      List.length_set]
  constructor
  · intro ⟨b, hbmem, hbcan⟩
    rcases hcase with ⟨h1, _, _, _⟩ | ⟨h1, _, _, hfind⟩
    · rw [hlen', h1]
      rfl
    · exfalso
      obtain ⟨j, hj⟩ := List.getElem?_of_mem hbmem
      have hjlt : j < p.blocks.length := (List.getElem?_eq_some_iff.mp hj).1
      have := (findBlock_spec NT p s.length hs).2.2 j (by omega)
      rw [List.getD_eq_getElem?_getD, hj] at this
      simp at this
      rw [this] at hbcan
      simp at hbcan
  · intro hnone
    rcases hcase with ⟨h1, _, hidx2, hlt⟩ | ⟨h1, _, _, hfind⟩
    · exfalso
      have := (findBlock_spec NT p s.length hs).2.1 (by omega)
      have hmem := getD_mem p.blocks (p.findBlockCapableOfStoringStringOfLength NT s.length)
        (by omega)
      have := hnone _ hmem
      rw [this] at *
      simp_all
    · rw [hlen', h1, List.length_append, List.length_singleton]
      rfl

/-! ### The merging constructor -/

theorem mergeBlockRuns_eq_merge (xs ys : List StringBlock) :
    mergeBlockRuns xs ys =
      List.merge xs ys (fun a b => ! decide (b.getFreeSpace < a.getFreeSpace)) := by
  induction xs generalizing ys with
  | nil => cases ys <;> simp [mergeBlockRuns, List.merge]
  | cons x xs ihx =>
    induction ys with
    | nil => simp [mergeBlockRuns, List.merge]
    | cons y ys ihy =>
      rw [List.cons_merge_cons]
      by_cases h : y.getFreeSpace < x.getFreeSpace
      · rw [if_neg (by simpa using h)]
        simp only [mergeBlockRuns, if_pos h]
        rw [ihy]
      · rw [if_pos (by simpa using h)]
        simp only [mergeBlockRuns, if_neg h]
        rw [ihx]

theorem length_mergeBlockRuns (xs ys : List StringBlock) :
    (mergeBlockRuns xs ys).length = xs.length + ys.length := by
  rw [mergeBlockRuns_eq_merge, List.length_merge]

theorem mergeBlockRuns_perm (xs ys : List StringBlock) :
    (mergeBlockRuns xs ys).Perm (xs ++ ys) := by
  rw [mergeBlockRuns_eq_merge]
  exact List.merge_perm_append _

theorem sorted_mergeBlockRuns (xs ys : List StringBlock)
    (hx : sortedByFreeSpace xs) (hy : sortedByFreeSpace ys) :
    sortedByFreeSpace (mergeBlockRuns xs ys) := by
  rw [mergeBlockRuns_eq_merge]
  have hconv : ∀ zs : List StringBlock,
      sortedByFreeSpace zs ↔
        zs.Pairwise (fun a b => (! decide (b.getFreeSpace < a.getFreeSpace)) = true) := by
    intro zs
    rw [sortedByFreeSpace, List.chain'_iff_pairwise]
    constructor
    · exact fun h => h.imp (by intro a b hab; simpa using hab)
    · exact fun h => h.imp (by intro a b hab; simpa using hab)
  rw [hconv]
  exact List.sorted_merge
    (by intro a b c h1 h2; simp at h1 h2 ⊢; omega)
    (by intro a b; simp; omega)
    xs ys ((hconv xs).mp hx) ((hconv ys).mp hy)

theorem mergeFold_length (others : List StringPool) :
    ∀ acc : List StringBlock,
      (others.foldl (fun acc q => mergeBlockRuns acc q.blocks) acc).length =
        acc.length + (others.map (fun q => q.blocks.length)).sum := by
  induction others with
  | nil => simp
  | cons q qs ih =>
    intro acc
    rw [List.foldl_cons, ih, length_mergeBlockRuns, List.map_cons, List.sum_cons]
    omega

theorem mergeFold_sorted (others : List StringPool)
    (hall : ∀ q ∈ others, sortedByFreeSpace q.blocks) :
    ∀ acc : List StringBlock, sortedByFreeSpace acc →
      sortedByFreeSpace (others.foldl (fun acc q => mergeBlockRuns acc q.blocks) acc) := by
  induction others with
  | nil => exact fun acc h => h
  | cons q qs ih =>
    intro acc hacc
    rw [List.foldl_cons]
    exact ih (fun r hr => hall r (List.mem_cons_of_mem q hr)) _
      (sorted_mergeBlockRuns acc q.blocks hacc (hall q (List.mem_cons_self q qs)))

theorem mergeFold_perm (others : List StringPool) :
    ∀ acc : List StringBlock,
      (others.foldl (fun acc q => mergeBlockRuns acc q.blocks) acc).Perm
        (acc ++ (others.map StringPool.blocks).flatten) := by
  induction others with
  | nil => simp
  | cons q qs ih =>
    intro acc
    rw [List.foldl_cons]
    refine (ih _).trans ?_
    rw [List.map_cons, List.flatten_cons, ← List.append_assoc]
    exact ((mergeBlockRuns_perm acc q.blocks).append_right _)

theorem mergeAll_blocks_perm (largest : StringPool) (others : List StringPool) :
    ((StringPool.mergeAll largest others).1).blocks.Perm
      (largest.blocks ++ (others.map StringPool.blocks).flatten) :=
  mergeFold_perm others largest.blocks

theorem readView_mergeAll (largest : StringPool) (others : List StringPool)
    (v : View) (q : StringPool)
    (hn : (((largest.blocks ++ (others.map StringPool.blocks).flatten)).map
      StringBlock.bufId).Nodup)
    (hq : q = largest ∨ q ∈ others) (hlive : viewLive q v) :
    readView (StringPool.mergeAll largest others).1 v = readView q v ∧
    viewLive (StringPool.mergeAll largest others).1 v := by
  cases v with
  | nullCharView => exact ⟨rfl, trivial⟩
  | ptr b off l =>
    obtain ⟨blk, hmem, hbid, hofs⟩ := hlive
    have hperm := mergeAll_blocks_perm largest others
    have hqsub : q.blocks.Sublist (largest.blocks ++ (others.map StringPool.blocks).flatten) := by
      rcases hq with rfl | hqmem
      · exact List.sublist_append_left _ _
      · exact (List.sublist_flatten_of_mem
          (List.mem_map_of_mem StringPool.blocks hqmem)).trans
          (List.sublist_append_right _ _)
    have hqnodup : (q.blocks.map StringBlock.bufId).Nodup :=
      (hqsub.map StringBlock.bufId).nodup hn
    have hmnodup : (((StringPool.mergeAll largest others).1).blocks.map
        StringBlock.bufId).Nodup := ((hperm.map StringBlock.bufId).nodup_iff).mpr hn
    have hmmem : blk ∈ ((StringPool.mergeAll largest others).1).blocks :=
      hperm.mem_iff.mpr (hqsub.mem hmem)
    have hfind_q : q.blocks.find? (fun blkk => blkk.bufId = b) = some blk :=
      find?_bufId_eq q.blocks hqnodup blk hmem b hbid
    have hfind_m : ((StringPool.mergeAll largest others).1).blocks.find?
        (fun blkk => blkk.bufId = b) = some blk :=
      find?_bufId_eq _ hmnodup blk hmmem b hbid
    constructor
    · simp only [readView]
      rw [hfind_q, hfind_m]
    · exact ⟨blk, hmmem, hbid, hofs⟩

/-! ### Sequences of adds from a fresh pool -/

theorem mkPool_wf (cap : Nat) (h : cap ≤ SIZE_MAX) : wfPool (StringPool.mkPool cap) := by
  refine ⟨?_, ?_, h⟩
  · intro b hb
    simp [StringPool.mkPool] at hb
  · simp [StringPool.mkPool]

theorem mkPool_sorted (cap : Nat) : sortedByFreeSpace (StringPool.mkPool cap).blocks := by
  simp [StringPool.mkPool, sortedByFreeSpace]

theorem addAll_preserves (NT : Bool) (ss : List (List Nat)) :
    ∀ p : StringPool, wfPool p → sortedByFreeSpace p.blocks →
      (∀ s ∈ ss, s.length ≤ SIZE_MAX) →
      wfPool (p.addAll NT ss) ∧ sortedByFreeSpace (p.addAll NT ss).blocks := by
  induction ss with
  | nil => exact fun p hwf hs _ => ⟨hwf, hs⟩
  | cons s ss ih =>
    intro p hwf hs hlen
    rw [StringPool.addAll]
    obtain ⟨hwf', hs'⟩ := add_preserves NT p s hwf hs (hlen s (List.mem_cons_self s ss))
    exact ih _ hwf' hs' (fun t ht => hlen t (List.mem_cons_of_mem s ht))

theorem readView_addAll (NT : Bool) (ss : List (List Nat)) :
    ∀ (p : StringPool) (v : View), wfPool p → sortedByFreeSpace p.blocks →
      (∀ s ∈ ss, s.length ≤ SIZE_MAX) → viewLive p v →
      readView (p.addAll NT ss) v = readView p v ∧ viewLive (p.addAll NT ss) v := by
  induction ss with
  | nil => exact fun p v _ _ _ hlive => ⟨rfl, hlive⟩
  | cons s ss ih =>
    intro p v hwf hs hlen hlive
    rw [StringPool.addAll]
    obtain ⟨hwf', hs'⟩ := add_preserves NT p s hwf hs (hlen s (List.mem_cons_self s ss))
    obtain ⟨hr, hl⟩ := readView_add NT p s v hwf hlive
    obtain ⟨hr', hl'⟩ := ih _ v hwf' hs' (fun t ht => hlen t (List.mem_cons_of_mem s ht)) hl
    exact ⟨hr'.trans hr, hl'⟩

/-! ## The claims -/

/-- C1: for every input string S (a real string: its length is below
`SIZE_MAX`) added to a reachable pool state (well-formed, sorted), the
returned view's length equals S's length, its contents read back as exactly
S, it points into a buffer owned by the resulting pool, and its buffer
address differs from every address that is neither pool-owned nor the fresh
address the allocator would hand out — in particular from the caller's
buffer holding S.  The pool always copies, never aliases caller memory. -/
theorem C1_add_returns_exact_copy (NT : Bool) (p : StringPool) (s : List Nat)
    (hwf : wfPool p) (hs : sortedByFreeSpace p.blocks) (hlen : s.length < SIZE_MAX) :
    ((p.add NT s).1).len = s.length ∧
    readView (p.add NT s).2 (p.add NT s).1 = some s ∧
    (∃ blk ∈ (p.add NT s).2.blocks, ((p.add NT s).1).buf = some blk.bufId) ∧
    (∀ a : Nat, (∀ blk ∈ p.blocks, blk.bufId ≠ a) → a ≠ p.nextId →
      ((p.add NT s).1).buf ≠ some a) := by
  obtain ⟨bi, hv, hmem, hread, hlive⟩ := add_success NT p s hwf hs hlen
  refine ⟨by rw [hv]; rfl, hread, ?_, ?_⟩
  · rw [hv] at hlive ⊢
    obtain ⟨blk, hblk, hbid, _⟩ := hlive
    exact ⟨blk, hblk, by rw [View.buf, hbid]⟩
  · intro a ha hnext heq
    rw [hv, View.buf] at heq
    have hba : bi.bufId = a := by
      injection heq
    rcases hmem with hmemp | hfresh
    · exact ha bi hmemp hba
    · rw [hba] at hfresh
      exact hnext hfresh

/-- C1 witness: instantiated at a fresh pool of standard capacity 4 and the
string `[1, 2]`; the hypotheses hold by computation. -/
theorem C1_witness :
    wfPool (StringPool.mkPool 4) ∧ sortedByFreeSpace (StringPool.mkPool 4).blocks ∧
    ([1, 2] : List Nat).length < SIZE_MAX ∧
    (((StringPool.mkPool 4).add true [1, 2]).1).len = ([1, 2] : List Nat).length :=
  ⟨by decide, by decide, by decide,
    (C1_add_returns_exact_copy true (StringPool.mkPool 4) [1, 2]
      (by decide) (by decide) (by decide)).1⟩

/-- C5: the pool built by the merging constructor owns exactly the sum of
the source pools' block counts, and every source pool is left with zero
blocks (`largestPool`'s vector is moved from, the others are cleared). -/
theorem C5_merge_block_counts (largest : StringPool) (others : List StringPool) :
    (StringPool.mergeAll largest others).1.getBlockCount =
      largest.getBlockCount + (others.map StringPool.getBlockCount).sum ∧
    (StringPool.mergeAll largest others).2.1.getBlockCount = 0 ∧
    (∀ q ∈ (StringPool.mergeAll largest others).2.2, q.getBlockCount = 0) := by
  refine ⟨?_, rfl, ?_⟩
  · simpa [StringPool.getBlockCount, StringPool.mergeAll] using
      mergeFold_length others largest.blocks
  · intro q hq
    simp only [StringPool.mergeAll, List.mem_map] at hq
    obtain ⟨r, _, rfl⟩ := hq
    rfl

/-- C6: `used <= capacity` holds for every Block after every operation:
construction, `addString`, `swap`, any pool `add`, and the merging
constructor; so `getFreeSpace() = capacity - used` never underflows. -/
theorem C6_used_le_capacity :
    (∀ id n : Nat, (StringBlock.mkBlock id n).usedSpace ≤ (StringBlock.mkBlock id n).size) ∧
    (∀ (NT : Bool) (b : StringBlock) (s : List Nat), b.usedSpace ≤ b.size →
      ((b.addString NT s).2).usedSpace ≤ ((b.addString NT s).2).size) ∧
    (∀ a b : StringBlock, a.usedSpace ≤ a.size → b.usedSpace ≤ b.size →
      (swapStringBlocks a b).1.usedSpace ≤ (swapStringBlocks a b).1.size ∧
      (swapStringBlocks a b).2.usedSpace ≤ (swapStringBlocks a b).2.size) ∧
    (∀ (NT : Bool) (p : StringPool) (s : List Nat),
      (∀ b ∈ p.blocks, b.usedSpace ≤ b.size) →
      ∀ b ∈ ((p.add NT s).2).blocks, b.usedSpace ≤ b.size) ∧
    (∀ (largest : StringPool) (others : List StringPool),
      (∀ b ∈ largest.blocks, b.usedSpace ≤ b.size) →
      (∀ q ∈ others, ∀ b ∈ q.blocks, b.usedSpace ≤ b.size) →
      ∀ b ∈ ((StringPool.mergeAll largest others).1).blocks,
        b.usedSpace ≤ b.size) := by
  refine ⟨?_, ?_, ?_, ?_, ?_⟩
  · intro id n
    simp [StringBlock.mkBlock]
  · exact fun NT b s h => addString_usedSpace_le NT b s h
  · exact fun a b ha hb => ⟨hb, ha⟩
  · intro NT p s hall b hb
    obtain ⟨bs1, idx, nid, hidx, hview, hblocks, hcap, hnid, hcase⟩ := add_shape NT p s
    have hbs1 : ∀ b ∈ bs1, b.usedSpace ≤ b.size := by
      rcases hcase with ⟨h1, _, _, _⟩ | ⟨h1, _, _, _⟩
      · rw [h1]
        exact hall
      · rw [h1]
        intro b hb
        rcases List.mem_append.mp hb with hmem | hmem
        · exact hall b hmem
        · rw [List.mem_singleton] at hmem
          subst hmem
          simp [StringBlock.mkBlock]
    rw [hblocks] at hb
    have hbL := (blockChanged_perm _ idx
      (by rw [List.length_set]; exact hidx)).mem_iff.mp hb
    rcases List.mem_or_eq_of_mem_set hbL with hmem | rfl
    · exact hbs1 b hmem
    · exact addString_usedSpace_le NT _ s (hbs1 _ (getD_mem bs1 idx hidx))
  · intro largest others hl ho b hb
    have := (mergeAll_blocks_perm largest others).mem_iff.mp hb
    rcases List.mem_append.mp this with hmem | hmem
    · exact hl b hmem
    · obtain ⟨l, hlmem, hbmem⟩ := List.mem_flatten.mp hmem
      obtain ⟨q, hqmem, rfl⟩ := List.mem_map.mp hlmem
      exact ho q hqmem b hbmem

/-- C6 witness: the `addString` conjunct applied to a concrete block. -/
theorem C6_witness :
    (StringBlock.mkBlock 0 3).usedSpace ≤ (StringBlock.mkBlock 0 3).size ∧
    (((StringBlock.mkBlock 0 3).addString true [1]).2).usedSpace ≤
      (((StringBlock.mkBlock 0 3).addString true [1]).2).size :=
  ⟨by decide, C6_used_le_capacity.2.1 true (StringBlock.mkBlock 0 3) [1] (by decide)⟩

/-- C7 counterexample: the claim reads the guard as being at the CHARACTER
type's maximum representable value.  The code guards at
`std::numeric_limits<std::size_t>::max()` instead: for an 8-bit character
type, a requested length equal to the character type's maximum (255) is
perfectly satisfiable on a block with enough room, refuting "canTake
returns false for that length on every Block". -/
theorem C7_counterexample :
    (StringBlock.mkBlock 0 300).canTakeStringOfLength true char8Max = true := by
  decide

/-- C7 (amended): with terminator padding enabled, a requested length equal
to the SIZE type's (`std::size_t`) maximum is never satisfiable —
`canTakeStringOfLength` returns false for it on every Block regardless of
free space — and the space-required computation `length + 1` never wraps
for any representable valid length. -/
theorem C7_size_max_guard :
    (∀ b : StringBlock, b.canTakeStringOfLength true SIZE_MAX = false) ∧
    (∀ length : Nat, length ≤ SIZE_MAX → isStringLengthValid true length = true →
      getSpaceRequiredToStoreStringOfLength true length = length + 1) := by
  constructor
  · intro b
    simp [StringBlock.canTakeStringOfLength, isStringLengthValid]
  · intro length hle hv
    have hne : length ≠ SIZE_MAX := by
      simpa [isStringLengthValid] using hv
    exact getSpaceRequired_of_valid length hne hle

/-- C7 witness: the no-wrap conjunct applied at length 5. -/
theorem C7_witness :
    ((5 : Nat) ≤ SIZE_MAX ∧ isStringLengthValid true 5 = true) ∧
    getSpaceRequiredToStoreStringOfLength true 5 = 6 :=
  ⟨⟨by decide, by decide⟩, C7_size_max_guard.2 5 (by decide) (by decide)⟩

/-- C9: on every pool state satisfying the sortedness invariant, the
heuristic search (skip to the last block when there are more than two
blocks and the second-to-last cannot take the string) returns exactly the
same index as a plain partition-point search over the whole sequence, so
the shortcut changes no observable behaviour of `add`. -/
theorem C9_shortcut_equals_full_search (NT : Bool) (p : StringPool) (length : Nat)
    (hs : sortedByFreeSpace p.blocks) :
    p.findBlockCapableOfStoringStringOfLength NT length =
      findBlockByFullSearch NT p length := by
  obtain ⟨hr1, hr2, hr3⟩ := findBlock_spec NT p length hs
  obtain ⟨hf1, hf2, hf3, hf4⟩ := lowerBoundIdx_spec
    (fun i => ! (p.blocks.getD i default).canTakeStringOfLength NT length)
    0 p.blocks.length
  rw [findBlockByFullSearch]
  set r1 := p.findBlockCapableOfStoringStringOfLength NT length with hrdef
  set r2 := lowerBoundIdx
    (fun i => ! (p.blocks.getD i default).canTakeStringOfLength NT length)
    0 p.blocks.length with hr2def
  rcases Nat.lt_trichotomy r1 r2 with h | h | h
  · exfalso
    have hcan := hr2 (by omega)
    have := hf3 r1 (by omega) h
    simp only [Bool.not_eq_true'] at this
    rw [hcan] at this
    cases this
  · exact h
  · exfalso
    have hcan : (p.blocks.getD r2 default).canTakeStringOfLength NT length = true := by
      have := hf4 (by omega)
      simpa using this
    have := hr3 r2 h
    rw [hcan] at this
    cases this

/-- C9 witness: a pool of three blocks where the shortcut is active. -/
theorem C9_witness :
    sortedByFreeSpace (⟨[StringBlock.mkBlock 0 0, StringBlock.mkBlock 1 0,
      StringBlock.mkBlock 2 10], 8, 3⟩ : StringPool).blocks ∧
    (⟨[StringBlock.mkBlock 0 0, StringBlock.mkBlock 1 0,
        StringBlock.mkBlock 2 10], 8, 3⟩ :
      StringPool).findBlockCapableOfStoringStringOfLength true 5 =
      findBlockByFullSearch true
        (⟨[StringBlock.mkBlock 0 0, StringBlock.mkBlock 1 0,
          StringBlock.mkBlock 2 10], 8, 3⟩ : StringPool) 5 :=
  ⟨by decide, C9_shortcut_equals_full_search true _ 5 (by decide)⟩

/-- C10: when a Block cannot take a string (and the debug assertion is
disabled), `addString` is atomic: it leaves the Block entirely unchanged
and returns the well-defined view of the static `nullChar`, whose length
is 0. -/
theorem C10_failed_append_atomic (NT : Bool) (b : StringBlock) (s : List Nat)
    (h : b.canTakeStringOfLength NT s.length = false) :
    b.addString NT s = (View.nullCharView, b) ∧ View.nullCharView.len = 0 :=
  ⟨addString_fail NT b s h, rfl⟩

/-- C10 witness: a zero-capacity block rejecting a one-unit string. -/
theorem C10_witness :
    (StringBlock.mkBlock 0 0).canTakeStringOfLength true ([7] : List Nat).length = false ∧
    (StringBlock.mkBlock 0 0).addString true [7] =
      (View.nullCharView, StringBlock.mkBlock 0 0) :=
  ⟨by decide, (C10_failed_append_atomic true (StringBlock.mkBlock 0 0) [7] (by decide)).1⟩

/-- C2: the Block sequence is sorted ascending by free space as an
invariant: it is preserved by every single `add` on a well-formed pool,
it holds after any sequence of `add` calls on a freshly constructed pool,
and it holds immediately after the merging constructor when the sources
satisfy it. -/
theorem C2_sorted_invariant :
    (∀ (NT : Bool) (p : StringPool) (s : List Nat),
      wfPool p → sortedByFreeSpace p.blocks → s.length ≤ SIZE_MAX →
      sortedByFreeSpace ((p.add NT s).2).blocks) ∧
    (∀ (NT : Bool) (cap : Nat) (ss : List (List Nat)),
      cap ≤ SIZE_MAX → (∀ s ∈ ss, s.length ≤ SIZE_MAX) →
      sortedByFreeSpace (((StringPool.mkPool cap).addAll NT ss)).blocks) ∧
    (∀ (largest : StringPool) (others : List StringPool),
      sortedByFreeSpace largest.blocks →
      (∀ q ∈ others, sortedByFreeSpace q.blocks) →
      sortedByFreeSpace ((StringPool.mergeAll largest others).1).blocks) := by
  refine ⟨?_, ?_, ?_⟩
  · exact fun NT p s hwf hs hlen => (add_preserves NT p s hwf hs hlen).2
  · intro NT cap ss hcap hlen
    exact (addAll_preserves NT ss (StringPool.mkPool cap)
      (mkPool_wf cap hcap) (mkPool_sorted cap) hlen).2
  · intro largest others hl ho
    exact mergeFold_sorted others ho largest.blocks hl

/-- C2 witness: the sequence-of-adds conjunct at capacity 4 and two
strings. -/
theorem C2_witness :
    ((4 : Nat) ≤ SIZE_MAX ∧ (∀ s ∈ [[1], [2, 3]], List.length s ≤ SIZE_MAX)) ∧
    sortedByFreeSpace (((StringPool.mkPool 4).addAll true [[1], [2, 3]])).blocks :=
  ⟨⟨by decide, by decide⟩, C2_sorted_invariant.2.1 true 4 [[1], [2, 3]]
    (by decide) (by decide)⟩

/-- C3: on every pool state satisfying the sortedness invariant, if at
least one existing Block can take the string then `add` creates no Block
(the count is unchanged) and writes into the Block found by the search,
which is capable and has the least free space among all capable Blocks
(best fit); a Block is created exactly when no existing Block can take the
string. -/
theorem C3_best_fit (NT : Bool) (p : StringPool) (s : List Nat)
    (hs : sortedByFreeSpace p.blocks) :
    ((∃ b ∈ p.blocks, b.canTakeStringOfLength NT s.length = true) →
      (p.add NT s).2.getBlockCount = p.getBlockCount ∧
      p.findBlockCapableOfStoringStringOfLength NT s.length < p.blocks.length ∧
      (p.blocks.getD (p.findBlockCapableOfStoringStringOfLength NT s.length)
        default).canTakeStringOfLength NT s.length = true ∧
      (∀ j, j < p.blocks.length →
        (p.blocks.getD j default).canTakeStringOfLength NT s.length = true →
        fsAt p.blocks (p.findBlockCapableOfStoringStringOfLength NT s.length) ≤
          fsAt p.blocks j) ∧
      (p.add NT s).1 =
        ((p.blocks.getD (p.findBlockCapableOfStoringStringOfLength NT s.length)
          default).addString NT s).1) ∧
    ((∀ b ∈ p.blocks, b.canTakeStringOfLength NT s.length = false) →
      (p.add NT s).2.getBlockCount = p.getBlockCount + 1) := by
  have hbc := add_blockCount NT p s hs
  obtain ⟨hr1, hr2, hr3⟩ := findBlock_spec NT p s.length hs
  constructor
  · intro hex
    have hfind_lt : p.findBlockCapableOfStoringStringOfLength NT s.length <
        p.blocks.length := by
      rcases Nat.lt_or_ge (p.findBlockCapableOfStoringStringOfLength NT s.length)
        p.blocks.length with h | h
      · exact h
      · exfalso
        obtain ⟨b, hbmem, hbcan⟩ := hex
        obtain ⟨j, hj⟩ := List.getElem?_of_mem hbmem
        have hjlt : j < p.blocks.length := (List.getElem?_eq_some_iff.mp hj).1
        have := hr3 j (by omega)
        rw [List.getD_eq_getElem?_getD, hj] at this
        simp only [Option.getD_some] at this
        rw [this] at hbcan
        cases hbcan
    refine ⟨hbc.1 hex, hfind_lt, hr2 hfind_lt, ?_, ?_⟩
    · intro j hj hcanj
      rcases Nat.lt_or_ge j (p.findBlockCapableOfStoringStringOfLength NT s.length)
        with h | h
      · exfalso
        rw [hr3 j h] at hcanj
        cases hcanj
      · exact sorted_pairs hs _ j h hj
    · obtain ⟨bs1, idx, nid, hidx, hview, hblocks, hcap, hnid, hcase⟩ := add_shape NT p s
      rcases hcase with ⟨h1, _, hidx2, _⟩ | ⟨_, _, _, hfind⟩
      · rw [h1, hidx2] at hview
        exact hview
      · omega
  · exact hbc.2

/-- C3 witness: a one-block pool that can take the string; the add reuses
that block. -/
theorem C3_witness :
    sortedByFreeSpace ((⟨[StringBlock.mkBlock 0 10], 100, 1⟩ : StringPool)).blocks ∧
    (∃ b ∈ (⟨[StringBlock.mkBlock 0 10], 100, 1⟩ : StringPool).blocks,
      b.canTakeStringOfLength true ([1] : List Nat).length = true) ∧
    ((⟨[StringBlock.mkBlock 0 10], 100, 1⟩ : StringPool).add true [1]).2.getBlockCount =
      (⟨[StringBlock.mkBlock 0 10], 100, 1⟩ : StringPool).getBlockCount :=
  ⟨by decide, by decide,
    ((C3_best_fit true (⟨[StringBlock.mkBlock 0 10], 100, 1⟩ : StringPool) [1]
      (by decide)).1 (by decide)).1⟩

/-- C4: a view returned by `add` is stable: a single later `add`, any later
sequence of `add` calls, and the merging constructor all leave the view's
contents unchanged and keep it live (its memory valid). -/
theorem C4_view_stability :
    (∀ (NT : Bool) (p : StringPool) (s : List Nat) (v : View),
      wfPool p → viewLive p v →
      readView (p.add NT s).2 v = readView p v ∧ viewLive (p.add NT s).2 v) ∧
    (∀ (NT : Bool) (p : StringPool) (ss : List (List Nat)) (v : View),
      wfPool p → sortedByFreeSpace p.blocks → (∀ s ∈ ss, s.length ≤ SIZE_MAX) →
      viewLive p v →
      readView (p.addAll NT ss) v = readView p v ∧ viewLive (p.addAll NT ss) v) ∧
    (∀ (largest : StringPool) (others : List StringPool) (v : View) (q : StringPool),
      (((largest.blocks ++ (others.map StringPool.blocks).flatten)).map
        StringBlock.bufId).Nodup →
      (q = largest ∨ q ∈ others) → viewLive q v →
      readView (StringPool.mergeAll largest others).1 v = readView q v ∧
      viewLive (StringPool.mergeAll largest others).1 v) := by
  refine ⟨?_, ?_, ?_⟩
  · exact fun NT p s v hwf hlive => readView_add NT p s v hwf hlive
  · exact fun NT p ss v hwf hs hlen hlive => readView_addAll NT ss p v hwf hs hlen hlive
  · exact fun largest others v q hn hq hlive => readView_mergeAll largest others v q hn hq hlive

/-- C4 witness: the single-add conjunct on a concrete one-block pool
holding a previously returned one-character view. -/
theorem C4_witness :
    (wfPool (⟨[⟨0, [5, 0, 0, 0], 4, 2⟩], 4, 1⟩ : StringPool) ∧
      viewLive (⟨[⟨0, [5, 0, 0, 0], 4, 2⟩], 4, 1⟩ : StringPool) (View.ptr 0 0 1)) ∧
    readView ((⟨[⟨0, [5, 0, 0, 0], 4, 2⟩], 4, 1⟩ : StringPool).add true [3]).2
        (View.ptr 0 0 1) =
      readView (⟨[⟨0, [5, 0, 0, 0], 4, 2⟩], 4, 1⟩ : StringPool) (View.ptr 0 0 1) :=
  ⟨⟨by decide, by decide⟩,
    (C4_view_stability.1 true (⟨[⟨0, [5, 0, 0, 0], 4, 2⟩], 4, 1⟩ : StringPool) [3]
      (View.ptr 0 0 1) (by decide) (by decide)).1⟩

set_option maxRecDepth 100000 in
/-- C8: the spec's concrete scenario, computed on the model: standard
capacity 100 with terminator padding; adding a 7-unit string, a 200-unit
string three times, then another 7-unit string yields 4 blocks, the three
blocks created for the 200-unit string have capacity `max(100, 201) = 201`,
and the final 7-unit string lands in the original block (buffer 0, which
had 92 units free) at offset 8. -/
theorem C8_concrete_scenario :
    (((((((((StringPool.mkPool 100).add true (List.replicate 7 1)).2).add true
        (List.replicate 200 2)).2).add true (List.replicate 200 2)).2).add true
        (List.replicate 200 2)).2).getBlockCount = 4 ∧
    ((((((((((StringPool.mkPool 100).add true (List.replicate 7 1)).2).add true
        (List.replicate 200 2)).2).add true (List.replicate 200 2)).2).add true
        (List.replicate 200 2)).2).add true (List.replicate 7 1)).2.getBlockCount = 4 ∧
    ((((((((((StringPool.mkPool 100).add true (List.replicate 7 1)).2).add true
        (List.replicate 200 2)).2).add true (List.replicate 200 2)).2).add true
        (List.replicate 200 2)).2).add true (List.replicate 7 1)).1 = View.ptr 0 8 7 ∧
    (((((((((StringPool.mkPool 100).add true (List.replicate 7 1)).2).add true
        (List.replicate 200 2)).2).add true (List.replicate 200 2)).2).add true
        (List.replicate 200 2)).2).blocks.map StringBlock.size = [201, 201, 201, 100] ∧
    ((((((((((StringPool.mkPool 100).add true (List.replicate 7 1)).2).add true
        (List.replicate 200 2)).2).add true (List.replicate 200 2)).2).add true
        (List.replicate 200 2)).2).blocks.getD 3 default).bufId = 0 ∧
    ((((((((((StringPool.mkPool 100).add true (List.replicate 7 1)).2).add true
        (List.replicate 200 2)).2).add true (List.replicate 200 2)).2).add true
        (List.replicate 200 2)).2).blocks.getD 3 default).getFreeSpace = 92 := by
  decide
